import Mathlib

/-!
Verification of the biotite repository core: the MDL connection-table (ctab)
codec (`biotite/structure/io/ctab.py`), the chain-level utilities
(`biotite/structure/chains.py`), and the pairwise alignment engine contract.

The Python code is shallowly embedded: strings are Lean `String`s (lists of
characters), Python `int` is `Int`, coordinates (Python floats) are modelled
as exact rationals `Rat` (the source formats them with five decimal places;
for values expressible with at most five decimals the rational model agrees
with the double-precision behaviour of the source), and fallible code
returns `Except`/`Option`.  `warnings.warn` calls are modelled as an
explicit list of advisory records returned next to the result.
-/

set_option maxRecDepth 8000

deriving instance DecidableEq for Except

/-- Whitespace test matching Python's `str.split`/`str.strip` for the ASCII
whitespace characters that can occur in ctab lines. -/
def isWS (c : Char) : Bool :=
  c == ' ' || c == '\t' || c == '\n' || c == '\r' || c == '\x0b' || c == '\x0c'

/-- Characters of a string. -/
def chars (s : String) : List Char := s.data

/-- Python `s[a:b]` on a string with non-negative bounds (clamping). -/
def pySlice (s : String) (a b : Nat) : String := ⟨(s.data.drop a).take (b - a)⟩

/-- Normalize one Python slice index for a list of length `len`. -/
def pyIdx (len : Nat) (i : Int) : Nat :=
  if i < 0 then ((len : Int) + i).toNat else min i.toNat len

/-- Python `l[a:b]` on a list (step 1), with negative-index semantics. -/
def pySliceList {α : Type} (l : List α) (a b : Int) : List α :=
  ((l.drop (pyIdx l.length a)).take (pyIdx l.length b - pyIdx l.length a))

/-- Drop leading whitespace. -/
def dropLeadWS (l : List Char) : List Char := l.dropWhile isWS

/-- Drop trailing whitespace. -/
def dropTrailWS (l : List Char) : List Char := (l.reverse.dropWhile isWS).reverse

/-- Python `str.strip()` (character-list form). -/
def stripChars (l : List Char) : List Char := dropTrailWS (dropLeadWS l)

/-- Python `str.strip()`. -/
def pyStrip (s : String) : String := ⟨stripChars s.data⟩

/-- Python `str.rstrip()`: used to compare lines modulo trailing whitespace. -/
def pyRstrip (s : String) : String := ⟨dropTrailWS s.data⟩

/-- Python `str.upper()` (ASCII, sufficient for element symbols). -/
def pyUpper (s : String) : String := ⟨s.data.map Char.toUpper⟩

/-- Python `str.split()` worker: current partial token is the accumulator. -/
def wsplitAux : List Char → List Char → List (List Char)
  | [], acc => if acc.isEmpty then [] else [acc.reverse]
  | c :: cs, acc =>
    if isWS c then
      (if acc.isEmpty then wsplitAux cs [] else acc.reverse :: wsplitAux cs [])
    else wsplitAux cs (c :: acc)

/-- Python `str.split()` with no separator: split on whitespace runs,
producing no empty tokens. -/
def pySplit (s : String) : List String := (wsplitAux s.data []).map String.mk

/-- Numeric value of a list of decimal digit characters (most significant
first). -/
def digitsVal (l : List Char) : Nat := l.foldl (fun a c => 10 * a + (c.toNat - 48)) 0

/-- A non-empty all-digit character list. -/
def digitsOk (l : List Char) : Bool := !l.isEmpty && l.all Char.isDigit

/-- Sign dispatch of Python `int(s)` after whitespace stripping. -/
def pyIntSign (t : List Char) : Option Int :=
  match t with
  | [] => none
  | c :: ds =>
    if c = '-' then (if digitsOk ds then some (-(digitsVal ds : Int)) else none)
    else if c = '+' then (if digitsOk ds then some ((digitsVal ds : Int)) else none)
    else if digitsOk (c :: ds) then some ((digitsVal (c :: ds) : Int)) else none

/-- Python `int(s)` on character lists: optional surrounding whitespace, an
optional sign, then decimal digits.  (Underscore separators and other bases
do not occur in ctab fields and are not modelled.) -/
def pyIntChars (l : List Char) : Option Int := pyIntSign (stripChars l)

/-- Python `int(s)`. -/
def pyInt (s : String) : Option Int := pyIntChars s.data

/-- Unsigned part of Python `float(s)` parsing: `digits [. digits]`, where
the integer digits are the leading digit run and the rest must be a dot
followed by digit characters only. -/
def pyFloatMag (ds : List Char) : Option Rat :=
  match ds.dropWhile Char.isDigit with
  | [] =>
    if (ds.takeWhile Char.isDigit).isEmpty then none
    else some ((digitsVal (ds.takeWhile Char.isDigit) : Rat))
  | c :: fr =>
    if c = '.' then
      (if fr.all Char.isDigit && !((ds.takeWhile Char.isDigit).isEmpty && fr.isEmpty) then
        some ((digitsVal (ds.takeWhile Char.isDigit) : Rat) +
          (digitsVal fr : Rat) / ((10 : Rat) ^ fr.length))
      else none)
    else none

/-- Sign dispatch of Python `float(s)` after whitespace stripping. -/
def pyFloatSign (t : List Char) : Option Rat :=
  match t with
  | [] => pyFloatMag []
  | c :: ds =>
    if c = '-' then (pyFloatMag ds).map (fun q => -q)
    else if c = '+' then pyFloatMag ds
    else pyFloatMag (c :: ds)

/-- Python `float(s)` restricted to plain decimal literals
(`[+-]? digits [. digits]`), the only shape occurring in ctab coordinate
fields; the value is kept as an exact rational. -/
def pyFloatChars (l : List Char) : Option Rat := pyFloatSign (stripChars l)

/-- Python `float(s)`. -/
def pyFloat (s : String) : Option Rat := pyFloatChars s.data

/-- Decimal digit characters of a natural number (fuelled, most significant
first). -/
def natCharsAux : Nat → Nat → List Char
  | 0, _ => []
  | fuel + 1, n =>
    if n < 10 then [Char.ofNat (48 + n)]
    else natCharsAux fuel (n / 10) ++ [Char.ofNat (48 + n % 10)]

/-- Decimal digit characters of a natural number. -/
def natChars (n : Nat) : List Char := natCharsAux (n + 1) n

/-- Decimal representation of an integer, as Python `str`/`repr` renders it. -/
def intChars (i : Int) : List Char :=
  if i < 0 then '-' :: natChars i.natAbs else natChars i.natAbs

/-- Python `str.rjust(w)` with spaces (also the `>` alignment of f-strings). -/
def rjustC (w : Nat) (l : List Char) : List Char :=
  List.replicate (w - l.length) ' ' ++ l

/-- The Python f-string field `f"{i:>3d}"`. -/
def fmtInt3 (i : Int) : String := ⟨rjustC 3 (intChars i)⟩

/-- Zero-padded five-digit fraction block of `f"{x:.5f}"`. -/
def zfill5 (n : Nat) : List Char := List.replicate (5 - (natChars n).length) '0' ++ natChars n

/-- Rounding used by `f"{x:.5f}"` in the rational model: nearest multiple of
`1/100000` (half away from zero on the magnitude; exact-tie behaviour of
binary doubles is immaterial for the 5-decimal values handled here). -/
def round5Mag (q : Rat) : Nat := (Rat.floor (q + 1 / 2)).toNat

/-- The Python f-string field `f"{x:.5f}"` in the rational model. -/
def fmtFixed5 (x : Rat) : String :=
  let k := round5Mag (|x| * 100000)
  ⟨(if x < 0 then ['-'] else []) ++ natChars (k / 100000) ++ '.' :: zfill5 (k % 100000)⟩

/-- The Python f-string field `f"{x:>10.5f}"`. -/
def fmtCoord (x : Rat) : String := ⟨rjustC 10 (fmtFixed5 x).data⟩

/-- The value a coordinate field holds after serializing with five decimal
places: `x` rounded to the nearest multiple of `1/100000`. -/
def roundTo5 (x : Rat) : Rat :=
  (if x < 0 then -1 else 1) * ((round5Mag (|x| * 100000) : Rat) / 100000)

/-- Association-list lookup with decidable key equality, mirroring Python
`dict.get` for dictionaries written as literal key/value sequences. -/
def assoc {α β : Type} [DecidableEq α] : List (α × β) → α → Option β
  | [], _ => none
  | (k, v) :: r, a => if a = k then some v else assoc r a

/-- The bond type enumeration of `biotite.structure.bonds.BondType`.
Modelled from the spec: `bonds.py` is not part of the sources; the spec's
bond-order categories are single, double, triple and the any/unspecified
fallback, and it states that bond types outside the serializer's
enumeration exist (they reverse-map to code 0), which the aromatic category
witnesses. -/
inductive BondT : Type
  | single
  | double
  | triple
  | any
  | aromatic
deriving DecidableEq

/-- `BOND_TYPE_MAPPING` of `ctab.py`: ctab bond-type code to `BondType`. -/
def BOND_TYPE_MAPPING : List (Int × BondT) :=
  [(1, .single), (2, .double), (3, .triple), (6, .single), (7, .double), (8, .any)]

/-- `CHARGE_MAPPING` of `ctab.py`: ctab charge code to formal charge. -/
def CHARGE_MAPPING : List (Int × Int) :=
  [(0, 0), (1, 3), (2, 2), (3, 1), (5, -1), (6, -2), (7, -3)]

/-- `BOND_TYPE_MAPPING_REV` of `ctab.py`: the dict comprehension
`{val: key for key, val in BOND_TYPE_MAPPING.items()}` lets later entries
overwrite earlier ones, which the reversed-list lookup reproduces. -/
def BOND_TYPE_MAPPING_REV (t : BondT) : Option Int :=
  assoc (BOND_TYPE_MAPPING.reverse.map (fun p => (p.2, p.1))) t

/-- `CHARGE_MAPPING_REV` of `ctab.py`. -/
def CHARGE_MAPPING_REV (c : Int) : Option Int :=
  assoc (CHARGE_MAPPING.reverse.map (fun p => (p.2, p.1))) c

/-- Advisory warnings emitted through `warnings.warn` during parsing. -/
inductive Warn : Type
  | charge (code : Int)
  | bond (code : Int)
deriving DecidableEq

/-- Python exceptions that can escape `read_structure_from_ctab`. -/
inductive PErr : Type
  | valueError
  | indexError
deriving DecidableEq

/-- One parsed atom: coordinates, element symbol and formal charge, one row
of the `AtomArray` produced by the parser. -/
structure AtomP : Type where
  x : Rat
  y : Rat
  z : Rat
  element : String
  charge : Int
deriving DecidableEq

/-- Default row of a freshly allocated `AtomArray` (zero coordinates, empty
element, zero charge).  Modelled from the spec: `atoms.py` is not part of
the sources; arrays are flat zero-initialised parallel arrays. -/
def defaultAtomP : AtomP := ⟨0, 0, 0, "", 0⟩

/-- Result of parsing: the atom rows plus the associated bond list
(0-based endpoint indices and a bond type per bond, as the `uint32` rows of
the source's `bond_array`). -/
structure ParsedStructure : Type where
  atoms : List AtomP
  bonds : List (Nat × Nat × BondT)
deriving DecidableEq

/-- `_get_counts` of `ctab.py`: split the counts line and convert the first
two tokens with `int`; a missing token raises `IndexError`, an unparsable
one `ValueError`. -/
def getCounts (line : String) : Except PErr (Int × Int) :=
  match pySplit line with
  | [] => .error .indexError
  | e0 :: rest =>
    match pyInt e0 with
    | none => .error .valueError
    | some nA =>
      match rest with
      | [] => .error .indexError
      | e1 :: _ =>
        match pyInt e1 with
        | none => .error .valueError
        | some nB => .ok (nA, nB)

/-- Body of the atom-line loop of `read_structure_from_ctab`: fixed-column
coordinate, element and charge-code fields; an unrecognized charge code
warns and substitutes 0. -/
def parseAtomLine (line : String) : Except PErr (AtomP × List Warn) :=
  match pyFloat (pySlice line 0 10) with
  | none => .error .valueError
  | some x =>
    match pyFloat (pySlice line 10 20) with
    | none => .error .valueError
    | some y =>
      match pyFloat (pySlice line 20 30) with
      | none => .error .valueError
      | some z =>
        let element := pyUpper (pyStrip (pySlice line 31 34))
        match pyInt (pySlice line 36 39) with
        | none => .error .valueError
        | some code =>
          match assoc CHARGE_MAPPING code with
          | some ch => .ok (⟨x, y, z, element, ch⟩, [])
          | none => .ok (⟨x, y, z, element, 0⟩, [.charge code])

/-- Body of the bond-line loop of `read_structure_from_ctab`: the bond-type
code is mapped first (default `BondType.ANY`, warning whenever the mapped
value is `ANY`), then the two 1-based endpoint fields are converted and
decremented into the `uint32` bond array. -/
def parseBondLine (line : String) : Except PErr ((Nat × Nat × BondT) × List Warn) :=
  match pyInt (pySlice line 6 9) with
  | none => .error .valueError
  | some code =>
    let bt := (assoc BOND_TYPE_MAPPING code).getD BondT.any
    let ws := if bt = BondT.any then [Warn.bond code] else []
    match pyInt (pySlice line 0 3) with
    | none => .error .valueError
    | some i =>
      match pyInt (pySlice line 3 6) with
      | none => .error .valueError
      | some j =>
        .ok ((((i - 1).emod (2 ^ 32)).toNat, ((j - 1).emod (2 ^ 32)).toNat, bt), ws)

/-- Run a line-parsing loop over a list of lines, aborting at the first
exception and concatenating the advisory warnings in line order. -/
def parseAll {γ : Type} (f : String → Except PErr (γ × List Warn)) :
    List String → Except PErr (List γ × List Warn)
  | [] => .ok ([], [])
  | l :: ls =>
    match f l with
    | .error e => .error e
    | .ok (x, w) =>
      match parseAll f ls with
      | .error e => .error e
      | .ok (xs, ws) => .ok (x :: xs, w ++ ws)

/-- `read_structure_from_ctab` of `ctab.py`.  The counts line is read from
`ctab_lines[0]`, the declared numbers of atom and bond lines are sliced out
(Python slices clamp, so missing lines silently shorten the slices), the
pre-allocated `AtomArray`/bond array keeps default rows for lines the
slices did not deliver, and a negative declared count raises `ValueError`
at the corresponding array allocation. -/
def read_structure_from_ctab (ctab_lines : List String) :
    Except PErr (ParsedStructure × List Warn) :=
  match ctab_lines.head? with
  | none => .error .indexError
  | some line0 =>
    match getCounts line0 with
    | .error e => .error e
    | .ok (nA, nB) =>
      let atom_lines := pySliceList ctab_lines 1 (1 + nA)
      let bond_lines := pySliceList ctab_lines (1 + nA) (1 + nA + nB)
      if nA < 0 then .error .valueError else
      match parseAll parseAtomLine atom_lines with
      | .error e => .error e
      | .ok (patoms, aw) =>
        let atoms := patoms ++ List.replicate (nA.toNat - atom_lines.length) defaultAtomP
        if nB < 0 then .error .valueError else
        match parseAll parseBondLine bond_lines with
        | .error e => .error e
        | .ok (pbonds, bw) =>
          .ok (⟨atoms, pbonds ++ List.replicate (nB.toNat - bond_lines.length)
                  (0, 0, BondT.any)⟩, aw ++ bw)

/-- A single-frame `AtomArray` as the serializer consumes it: parallel
coordinate and element arrays, an optional `charge` annotation and an
optional associated `BondList`.  Modelled from the spec for the parts of
`atoms.py`/`bonds.py` not in the sources: parallel equal-length arrays, and
a bond graph that is a plain list of (i, j, bond-order) triples. -/
structure AtomArrayM : Type where
  coord : List (Rat × Rat × Rat)
  element : List String
  charge : Option (List Int)
  bonds : Option (List (Nat × Nat × BondT))
deriving DecidableEq

/-- Input to the serializer: the spec's tagged variant of a single-frame
array versus a multi-frame `AtomArrayStack` (whose content the serializer
never inspects). -/
inductive WriteInput : Type
  | single (a : AtomArrayM)
  | stack (frames : Nat)

/-- Python exceptions raised by `write_structure_to_ctab`. -/
inductive WErr : Type
  | typeError
  | badStructureError
deriving DecidableEq

/-- One serialized atom line of `write_structure_to_ctab`: three 10-column
5-decimal coordinate fields, a space, the right-justified 3-column element,
two spaces, the reverse-mapped 3-column charge code, and ten zero-filled
3-column fields. -/
def atomLineOf (c : Rat × Rat × Rat) (el : String) (ch : Int) : String :=
  fmtCoord c.1 ++ fmtCoord c.2.1 ++ fmtCoord c.2.2 ++ " " ++ ⟨rjustC 3 el.data⟩ ++
    "  " ++ fmtInt3 ((CHARGE_MAPPING_REV ch).getD 0) ++ "  0  0  0  0  0  0  0  0  0  0"

/-- One serialized bond line of `write_structure_to_ctab`: 1-based endpoint
indices and the reverse-mapped bond-type code in 3-column fields, then four
zero-filled 3-column fields. -/
def bondLineOf (b : Nat × Nat × BondT) : String :=
  fmtInt3 ((b.1 : Int) + 1) ++ fmtInt3 ((b.2.1 : Int) + 1) ++
    fmtInt3 ((BOND_TYPE_MAPPING_REV b.2.2).getD 0) ++ "  0  0  0  0"

/-- The counts line `write_structure_to_ctab` emits. -/
def countsLineOf (nAtoms nBonds : Nat) : String :=
  fmtInt3 (nAtoms : Int) ++ fmtInt3 (nBonds : Int) ++ "   " ++ "  0  0  0  0  0  1 V2000"

/-- `write_structure_to_ctab` of `ctab.py`: an `AtomArrayStack` raises
`TypeError`, a missing bond list raises `BadStructureError`, a missing
charge annotation defaults every charge to 0; otherwise the counts line,
the atom lines, the bond lines and the `M  END` terminator are emitted.
The writer performs no `warnings.warn` call, reflected by the constant
empty advisory list. -/
def write_structure_to_ctab (inp : WriteInput) :
    Except WErr (List String × List Warn) :=
  match inp with
  | .stack _ => .error .typeError
  | .single a =>
    match a.bonds with
    | none => .error .badStructureError
    | some bl =>
      let n := a.coord.length
      let charge := a.charge.getD (List.replicate n 0)
      let atom_lines := (List.range n).map (fun i =>
        atomLineOf (a.coord.getD i (0, 0, 0)) (a.element.getD i "") (charge.getD i 0))
      let bond_lines := bl.map bondLineOf
      .ok ([countsLineOf n bond_lines.length] ++ atom_lines ++ bond_lines ++ ["M  END"], [])

/-- Rebuild the serializer's input from a parse result (the parser always
attaches a `charge` annotation and a bond list). -/
def structToArray (p : ParsedStructure) : AtomArrayM :=
  { coord := p.atoms.map (fun a => (a.x, a.y, a.z))
    element := p.atoms.map (fun a => a.element)
    charge := some (p.atoms.map (fun a => a.charge))
    bonds := some p.bonds }

/-- The round trip `serialize(parse(lines))`, `none` when either direction
raises. -/
def serializeAfterParse (lines : List String) : Option (List String) :=
  match read_structure_from_ctab lines with
  | .error _ => none
  | .ok (p, _) =>
    match write_structure_to_ctab (.single (structToArray p)) with
    | .error _ => none
    | .ok (ls, _) => some ls

/-! ### Basic facts about the character-level primitives -/

/-- Concatenation of strings concatenates their character lists. -/
theorem data_append (s t : String) : (s ++ t).data = s.data ++ t.data := rfl

/-- A digit character is not whitespace. -/
theorem not_ws_of_digit (c : Char) (h : c.isDigit = true) : isWS c = false := by
  rcases eq_or_ne c ' ' with rfl | h1; · exact absurd h (by decide)
  rcases eq_or_ne c '\t' with rfl | h2; · exact absurd h (by decide)
  rcases eq_or_ne c '\n' with rfl | h3; · exact absurd h (by decide)
  rcases eq_or_ne c '\r' with rfl | h4; · exact absurd h (by decide)
  rcases eq_or_ne c '\x0b' with rfl | h5; · exact absurd h (by decide)
  rcases eq_or_ne c '\x0c' with rfl | h6; · exact absurd h (by decide)
  simp [isWS, h1, h2, h3, h4, h5, h6]

/-- A digit character is not a minus sign. -/
theorem digit_ne_minus (c : Char) (h : c.isDigit = true) : c ≠ '-' := by
  rintro rfl; exact absurd h (by decide)

/-- A digit character is not a plus sign. -/
theorem digit_ne_plus (c : Char) (h : c.isDigit = true) : c ≠ '+' := by
  rintro rfl; exact absurd h (by decide)

/-- A digit character is not a decimal point. -/
theorem digit_ne_dot (c : Char) (h : c.isDigit = true) : c ≠ '.' := by
  rintro rfl; exact absurd h (by decide)

/-- Character produced for the digit `d`. -/
theorem digitChar_isDigit (d : Nat) (h : d < 10) : (Char.ofNat (48 + d)).isDigit = true := by
  interval_cases d <;> decide

/-- Code point of the character produced for the digit `d`. -/
theorem digitChar_toNat (d : Nat) (h : d < 10) : (Char.ofNat (48 + d)).toNat = 48 + d := by
  interval_cases d <;> decide

/-- Appending one character to a digit list shifts the accumulated value. -/
theorem digitsVal_append_one (l : List Char) (c : Char) :
    digitsVal (l ++ [c]) = 10 * digitsVal l + (c.toNat - 48) := by
  simp [digitsVal, List.foldl_append]

/-- Leading zero characters do not change the digit value. -/
theorem digitsVal_zeros (k : Nat) (l : List Char) :
    digitsVal (List.replicate k '0' ++ l) = digitsVal l := by
  induction k with
  | zero => rfl
  | succ k ih =>
    have : List.replicate (k + 1) '0' ++ l = '0' :: (List.replicate k '0' ++ l) := by
      simp [List.replicate_succ]
    rw [this]
    simpa [digitsVal] using ih

/-- Main inductive characterisation of `natCharsAux` under sufficient fuel. -/
theorem natCharsAux_spec : ∀ fuel n, n < fuel →
    natCharsAux fuel n ≠ [] ∧ (∀ c ∈ natCharsAux fuel n, c.isDigit = true) ∧
      digitsVal (natCharsAux fuel n) = n := by
  intro fuel
  induction fuel with
  | zero => intro n h; omega
  | succ fuel ih =>
    intro n h
    by_cases h10 : n < 10
    · refine ⟨by simp [natCharsAux, h10], ?_, ?_⟩
      · intro c hc
        simp [natCharsAux, h10] at hc
        subst hc
        exact digitChar_isDigit n h10
      · simp [natCharsAux, h10, digitsVal, digitChar_toNat n h10]
    · have hn : 0 < n := by omega
      have hdiv : n / 10 < fuel := by
        have h1 : n / 10 < n := Nat.div_lt_self hn (by omega)
        omega
      obtain ⟨hne, hdig, hval⟩ := ih (n / 10) hdiv
      have hrw : natCharsAux (fuel + 1) n =
          natCharsAux fuel (n / 10) ++ [Char.ofNat (48 + n % 10)] := by
        simp [natCharsAux, h10]
      refine ⟨by simp [hrw], ?_, ?_⟩
      · intro c hc
        rw [hrw] at hc
        rcases List.mem_append.mp hc with hc1 | hc2
        · exact hdig c hc1
        · rw [List.mem_singleton] at hc2
          subst hc2
          exact digitChar_isDigit _ (Nat.mod_lt _ (by omega))
      · rw [hrw, digitsVal_append_one, hval, digitChar_toNat _ (Nat.mod_lt _ (by omega))]
        omega

/-- The decimal digits of `n` are non-empty. -/
theorem natChars_ne_nil (n : Nat) : natChars n ≠ [] :=
  (natCharsAux_spec (n + 1) n (by omega)).1

/-- The decimal digits of `n` are digit characters. -/
theorem natChars_digits (n : Nat) : ∀ c ∈ natChars n, c.isDigit = true :=
  (natCharsAux_spec (n + 1) n (by omega)).2.1

/-- The decimal digits of `n` evaluate back to `n`. -/
theorem digitsVal_natChars (n : Nat) : digitsVal (natChars n) = n :=
  (natCharsAux_spec (n + 1) n (by omega)).2.2

/-- Fuelled digit-count bound. -/
theorem natCharsAux_len : ∀ fuel n d, n < fuel → 1 ≤ d → n < 10 ^ d →
    (natCharsAux fuel n).length ≤ d := by
  intro fuel
  induction fuel with
  | zero => intro n d h; omega
  | succ fuel ih =>
    intro n d h hd hpow
    by_cases h10 : n < 10
    · simp [natCharsAux, h10]; omega
    · have hn : 0 < n := by omega
      have hdiv : n / 10 < fuel := by
        have h1 : n / 10 < n := Nat.div_lt_self hn (by omega)
        omega
      have hd2 : 2 ≤ d := by
        by_contra hcon
        have : d = 1 := by omega
        subst this
        simp at hpow
        omega
      have hpow2 : n / 10 < 10 ^ (d - 1) := by
        have hmul : 10 ^ (d - 1) * 10 = 10 ^ d := by
          rw [← pow_succ]
          congr 1
          omega
        omega
      have := ih (n / 10) (d - 1) hdiv (by omega) hpow2
      have hrw : natCharsAux (fuel + 1) n =
          natCharsAux fuel (n / 10) ++ [Char.ofNat (48 + n % 10)] := by
        simp [natCharsAux, h10]
      rw [hrw]
      simp only [List.length_append, List.length_cons, List.length_nil]
      omega

/-- Digit-count bound for `natChars`. -/
theorem natChars_len_le (n d : Nat) (hd : 1 ≤ d) (h : n < 10 ^ d) :
    (natChars n).length ≤ d :=
  natCharsAux_len (n + 1) n d (by omega) hd h

/-- Leading space padding is invisible to `dropLeadWS`. -/
theorem dropLeadWS_replicate (k : Nat) (l : List Char) :
    dropLeadWS (List.replicate k ' ' ++ l) = dropLeadWS l := by
  induction k with
  | zero => rfl
  | succ k ih =>
    have : List.replicate (k + 1) ' ' ++ l = ' ' :: (List.replicate k ' ' ++ l) := by
      simp [List.replicate_succ]
    rw [this]
    simpa [dropLeadWS, List.dropWhile] using ih

/-- Stripping ignores leading space padding. -/
theorem stripChars_pad (k : Nat) (l : List Char) :
    stripChars (List.replicate k ' ' ++ l) = stripChars l := by
  unfold stripChars
  rw [dropLeadWS_replicate]

/-- A list with no whitespace characters strips to itself. -/
theorem stripChars_nonws (l : List Char) (h : ∀ c ∈ l, isWS c = false) :
    stripChars l = l := by
  have h1 : dropLeadWS l = l := by
    cases l with
    | nil => rfl
    | cons c cs => simp [dropLeadWS, List.dropWhile, h c (by simp)]
  have h2 : dropTrailWS l = l := by
    unfold dropTrailWS
    have : l.reverse.dropWhile isWS = l.reverse := by
      cases hr : l.reverse with
      | nil => rfl
      | cons c cs =>
        have hc : c ∈ l := by
          have : c ∈ l.reverse := by rw [hr]; simp
          simpa using this
        simp [List.dropWhile, h c hc]
    rw [this, List.reverse_reverse]
  unfold stripChars
  rw [h1, h2]

/-- The characters of an integer's decimal form contain no whitespace. -/
theorem intChars_nonws (i : Int) : ∀ c ∈ intChars i, isWS c = false := by
  intro c hc
  unfold intChars at hc
  by_cases hneg : i < 0
  · rw [if_pos hneg] at hc
    rcases List.mem_cons.mp hc with rfl | hmem
    · decide
    · exact not_ws_of_digit c (natChars_digits _ c hmem)
  · rw [if_neg hneg] at hc
    exact not_ws_of_digit c (natChars_digits _ c hc)

/-- `pyIntSign` inverts the integer printer. -/
theorem pyIntSign_intChars (i : Int) : pyIntSign (intChars i) = some i := by
  by_cases hneg : i < 0
  · have hrw : intChars i = '-' :: natChars i.natAbs := by
      unfold intChars
      rw [if_pos hneg]
    rw [hrw]
    have hok : digitsOk (natChars i.natAbs) = true := by
      unfold digitsOk
      have h1 : (natChars i.natAbs).isEmpty = false := by
        cases hn : natChars i.natAbs with
        | nil => exact absurd hn (natChars_ne_nil _)
        | cons a b => rfl
      rw [h1]
      simpa [List.all_eq_true] using natChars_digits i.natAbs
    simp only [pyIntSign]
    rw [if_pos trivial, if_pos hok, digitsVal_natChars]
    congr 1
    omega
  · obtain ⟨c, cs, hcc⟩ : ∃ c cs, natChars i.natAbs = c :: cs := by
      cases hn : natChars i.natAbs with
      | nil => exact absurd hn (natChars_ne_nil _)
      | cons a b => exact ⟨a, b, rfl⟩
    have hcd : c.isDigit = true := natChars_digits _ c (by rw [hcc]; simp)
    have hrw : intChars i = c :: cs := by
      unfold intChars
      rw [if_neg hneg, hcc]
    rw [hrw]
    have hok : digitsOk (c :: cs) = true := by
      unfold digitsOk
      rw [← hcc]
      have h1 : (natChars i.natAbs).isEmpty = false := by
        rw [hcc]; rfl
      rw [h1]
      simpa [List.all_eq_true] using natChars_digits i.natAbs
    simp only [pyIntSign]
    rw [if_neg (digit_ne_minus c hcd), if_neg (digit_ne_plus c hcd), if_pos hok, ← hcc,
      digitsVal_natChars]
    congr 1
    omega

/-- Parsing a right-justified integer field recovers the integer, whatever
the field width. -/
theorem pyInt_rjust_intChars (w : Nat) (i : Int) :
    pyIntChars (rjustC w (intChars i)) = some i := by
  unfold pyIntChars rjustC
  rw [stripChars_pad, stripChars_nonws _ (intChars_nonws i), pyIntSign_intChars]

/-- Parsing the `f"{i:>3d}"` field recovers the integer. -/
theorem pyInt_fmtInt3 (i : Int) : pyInt (fmtInt3 i) = some i :=
  pyInt_rjust_intChars 3 i

/-- Extracting a fixed-width field from a concatenated line. -/
theorem slice_field (p f r : List Char) (a b : Nat) (hp : p.length = a)
    (hf : f.length = b - a) : pySlice ⟨p ++ (f ++ r)⟩ a b = ⟨f⟩ := by
  unfold pySlice
  subst hp
  have : (List.drop p.length (p ++ (f ++ r))).take (b - p.length) = f := by
    rw [List.drop_left, ← hf, List.take_left]
  simp only [this]

/-- `takeWhile` stops exactly at the boundary of an all-true block. -/
theorem takeWhile_block (p : Char → Bool) (l r : List Char)
    (hl : ∀ c ∈ l, p c = true) (hr : ∀ c, r.head? = some c → p c = false) :
    (l ++ r).takeWhile p = l := by
  induction l with
  | nil =>
    cases r with
    | nil => rfl
    | cons c cs => simp [List.takeWhile_cons, hr c rfl]
  | cons a l' ih =>
    simp [List.takeWhile_cons, hl a (by simp), ih (fun c hc => hl c (by simp [hc]))]

/-- `dropWhile` drops exactly an all-true block. -/
theorem dropWhile_block (p : Char → Bool) (l r : List Char)
    (hl : ∀ c ∈ l, p c = true) (hr : ∀ c, r.head? = some c → p c = false) :
    (l ++ r).dropWhile p = r := by
  induction l with
  | nil =>
    cases r with
    | nil => rfl
    | cons c cs => simp [List.dropWhile_cons, hr c rfl]
  | cons a l' ih =>
    simp [List.dropWhile_cons, hl a (by simp), ih (fun c hc => hl c (by simp [hc]))]

/-! ### Splitting the counts line -/

/-- A non-whitespace block moves wholesale into the split accumulator. -/
theorem wsplitAux_nonws_block : ∀ (t cs acc : List Char), (∀ c ∈ t, isWS c = false) →
    wsplitAux (t ++ cs) acc = wsplitAux cs (t.reverse ++ acc) := by
  intro t
  induction t with
  | nil => intro cs acc _; simp
  | cons a t' ih =>
    intro cs acc ht
    have ha : isWS a = false := ht a (by simp)
    simp only [List.cons_append, wsplitAux, ha, Bool.false_eq_true, if_false, List.append_eq]
    rw [ih cs (a :: acc) (fun c hc => ht c (by simp [hc]))]
    simp

/-- Leading space padding is invisible to splitting on an empty accumulator. -/
theorem wsplitAux_pad : ∀ (k : Nat) (cs : List Char),
    wsplitAux (List.replicate k ' ' ++ cs) [] = wsplitAux cs [] := by
  intro k
  induction k with
  | zero => intro cs; rfl
  | succ k ih =>
    intro cs
    have h1 : List.replicate (k + 1) ' ' ++ cs = ' ' :: (List.replicate k ' ' ++ cs) := by
      simp [List.replicate_succ]
    rw [h1]
    have h2 : wsplitAux (' ' :: (List.replicate k ' ' ++ cs)) [] =
        wsplitAux (List.replicate k ' ' ++ cs) [] := by
      simp [wsplitAux, show isWS ' ' = true from rfl]
    rw [h2]
    exact ih cs

/-- A maximal non-whitespace token splits off in front. -/
theorem wsplitAux_token (t rest : List Char) (ht : t ≠ [])
    (hnw : ∀ c ∈ t, isWS c = false)
    (hr : rest = [] ∨ ∃ c cs, rest = c :: cs ∧ isWS c = true) :
    wsplitAux (t ++ rest) [] = t :: wsplitAux rest [] := by
  rw [wsplitAux_nonws_block t rest [] hnw]
  have hne : (t.reverse).isEmpty = false := by
    cases t with
    | nil => exact absurd rfl ht
    | cons a b => simp
  rcases hr with rfl | ⟨c, cs, rfl, hcws⟩
  · simp [wsplitAux, hne]
  · simp [wsplitAux, hne, hcws]

/-- `intChars` of a natural-number cast is just its digit list. -/
theorem intChars_ofNat (n : Nat) : intChars (n : Int) = natChars n := by
  unfold intChars
  rw [if_neg (by omega)]
  congr 1

/-- Parsing the bare digit list of `n` yields `n`. -/
theorem pyIntChars_natChars (n : Nat) : pyIntChars (natChars n) = some (n : Int) := by
  have := pyInt_rjust_intChars 0 (n : Int)
  rw [intChars_ofNat] at this
  unfold rjustC at this
  simpa using this

/-- Splitting the serializer's counts line: the bond-count field keeps at
least one leading space whenever the bond count is below 100, so the two
numeric tokens stay separate. -/
theorem pySplit_countsLineOf (nA nB : Nat) (hB : nB ≤ 99) :
    pySplit (countsLineOf nA nB) =
      ⟨natChars nA⟩ :: ⟨natChars nB⟩ :: ["0", "0", "0", "0", "0", "1", "V2000"] := by
  have hdata : (countsLineOf nA nB).data =
      List.replicate (3 - (natChars nA).length) ' ' ++ (natChars nA ++
        (List.replicate (3 - (natChars nB).length) ' ' ++ (natChars nB ++
          ("   " ++ "  0  0  0  0  0  1 V2000").data))) := by
    show (fmtInt3 (nA : Int) ++ fmtInt3 (nB : Int) ++ "   " ++ "  0  0  0  0  0  1 V2000").data = _
    simp only [data_append, fmtInt3, intChars_ofNat, rjustC]
    simp [List.append_assoc]
  have hlenB : (natChars nB).length ≤ 2 := natChars_len_le nB 2 (by omega) (by omega)
  obtain ⟨p, hp⟩ : ∃ p, 3 - (natChars nB).length = p + 1 := ⟨2 - (natChars nB).length, by omega⟩
  unfold pySplit
  rw [hdata, wsplitAux_pad]
  rw [wsplitAux_token (natChars nA) _ (natChars_ne_nil nA)
    (fun c hc => not_ws_of_digit c (natChars_digits nA c hc))
    (by
      right
      refine ⟨' ', List.replicate p ' ' ++ (natChars nB ++ ("   " ++ "  0  0  0  0  0  1 V2000").data), ?_, by decide⟩
      rw [hp]
      simp [List.replicate_succ])]
  rw [show List.replicate (3 - (natChars nB).length) ' ' ++ (natChars nB ++
        ("   " ++ "  0  0  0  0  0  1 V2000").data) =
      List.replicate (3 - (natChars nB).length) ' ' ++ (natChars nB ++
        ("   " ++ "  0  0  0  0  0  1 V2000").data) from rfl]
  rw [wsplitAux_pad]
  rw [wsplitAux_token (natChars nB) _ (natChars_ne_nil nB)
    (fun c hc => not_ws_of_digit c (natChars_digits nB c hc))
    (by right; exact ⟨' ', ("    0  0  0  0  0  1 V2000").data, by decide, by decide⟩)]
  have htail : wsplitAux (("   " ++ "  0  0  0  0  0  1 V2000").data) [] =
      [['0'], ['0'], ['0'], ['0'], ['0'], ['1'], ['V', '2', '0', '0', '0']] := by decide
  rw [htail]
  rfl

/-- `_get_counts` recovers the two counts from the serializer's counts line
whenever the bond count stays below 100. -/
theorem getCounts_countsLineOf (nA nB : Nat) (hB : nB ≤ 99) :
    getCounts (countsLineOf nA nB) = .ok ((nA : Int), (nB : Int)) := by
  unfold getCounts
  rw [pySplit_countsLineOf nA nB hB]
  simp only [pyInt, pyIntChars_natChars]

/-! ### Parsing formatted coordinate fields -/

/-- The zero-filled fraction block consists of digit characters. -/
theorem zfill5_digits (n : Nat) : ∀ c ∈ zfill5 n, c.isDigit = true := by
  intro c hc
  unfold zfill5 at hc
  rcases List.mem_append.mp hc with h1 | h2
  · rw [List.eq_of_mem_replicate h1]; decide
  · exact natChars_digits n c h2

/-- The zero-filled fraction block has exactly five characters. -/
theorem zfill5_len (n : Nat) (h : n < 100000) : (zfill5 n).length = 5 := by
  have := natChars_len_le n 5 (by omega) (by norm_num; omega)
  unfold zfill5
  simp only [List.length_append, List.length_replicate]
  omega

/-- The zero-filled fraction block keeps the numeric value. -/
theorem digitsVal_zfill5 (n : Nat) : digitsVal (zfill5 n) = n := by
  unfold zfill5
  rw [digitsVal_zeros, digitsVal_natChars]

/-- Characters of a formatted 5-decimal field are never whitespace. -/
theorem fmtFixed5_nonws (x : Rat) : ∀ c ∈ (fmtFixed5 x).data, isWS c = false := by
  intro c hc
  unfold fmtFixed5 at hc
  simp only [List.mem_append, List.mem_cons] at hc
  rcases hc with (h1 | h2) | h3 | h4
  · by_cases hneg : x < 0
    · rw [if_pos hneg] at h1
      simp at h1
      subst h1
      decide
    · rw [if_neg hneg] at h1
      simp at h1
  · exact not_ws_of_digit c (natChars_digits _ c h2)
  · subst h3; decide
  · exact not_ws_of_digit c (zfill5_digits _ c h4)

/-- `pyFloatMag` on a `digits.digits` block returns integer plus fraction. -/
theorem pyFloatMag_frac (a b : Nat) (hb : b < 100000) :
    pyFloatMag (natChars a ++ '.' :: zfill5 b) = some ((a : Rat) + (b : Rat) / 100000) := by
  have hhead : ∀ c : Char, ('.' :: zfill5 b).head? = some c → c.isDigit = false := by
    intro c hc
    simp at hc
    subst hc
    decide
  have ht : (natChars a ++ '.' :: zfill5 b).takeWhile Char.isDigit = natChars a :=
    takeWhile_block _ _ _ (natChars_digits a) hhead
  have hd : (natChars a ++ '.' :: zfill5 b).dropWhile Char.isDigit = '.' :: zfill5 b :=
    dropWhile_block _ _ _ (natChars_digits a) hhead
  have hall : (zfill5 b).all Char.isDigit = true := by
    simpa [List.all_eq_true] using zfill5_digits b
  have hipe : (natChars a).isEmpty = false := by
    cases hn : natChars a with
    | nil => exact absurd hn (natChars_ne_nil a)
    | cons u v => rfl
  simp only [pyFloatMag, hd, ht, hall, hipe]
  rw [if_pos trivial]
  simp only [Bool.and_true, Bool.false_and, Bool.not_false, if_pos]
  rw [digitsVal_natChars, digitsVal_zfill5, zfill5_len b hb]
  norm_num

/-- Division/modulus recombination for the 5-decimal value. -/
theorem rat_div_mod_5 (k : Nat) :
    ((k / 100000 : Nat) : Rat) + ((k % 100000 : Nat) : Rat) / 100000 = (k : Rat) / 100000 := by
  have h := Nat.div_add_mod k 100000
  field_simp
  norm_cast
  omega

/-- Parsing the 5-decimal rendering of `x` yields `x` rounded to five
decimal places. -/
theorem pyFloatSign_fmtFixed5 (x : Rat) :
    pyFloatSign (fmtFixed5 x).data = some (roundTo5 x) := by
  have hb : round5Mag (|x| * 100000) % 100000 < 100000 := Nat.mod_lt _ (by norm_num)
  have hmag := pyFloatMag_frac (round5Mag (|x| * 100000) / 100000)
    (round5Mag (|x| * 100000) % 100000) hb
  rw [rat_div_mod_5] at hmag
  by_cases hneg : x < 0
  · have hdata : (fmtFixed5 x).data = '-' :: (natChars (round5Mag (|x| * 100000) / 100000) ++
        '.' :: zfill5 (round5Mag (|x| * 100000) % 100000)) := by
      simp only [fmtFixed5]
      rw [if_pos hneg]
      simp
    rw [hdata]
    simp only [pyFloatSign]
    rw [if_pos trivial, hmag]
    unfold roundTo5
    rw [if_pos hneg]
    simp
  · obtain ⟨c, cs, hcc⟩ : ∃ c cs, natChars (round5Mag (|x| * 100000) / 100000) = c :: cs := by
      cases hn : natChars (round5Mag (|x| * 100000) / 100000) with
      | nil => exact absurd hn (natChars_ne_nil _)
      | cons u v => exact ⟨u, v, rfl⟩
    have hcd : c.isDigit = true := natChars_digits _ c (by rw [hcc]; simp)
    have hdata : (fmtFixed5 x).data = c :: (cs ++
        '.' :: zfill5 (round5Mag (|x| * 100000) % 100000)) := by
      simp only [fmtFixed5]
      rw [if_neg hneg, hcc]
      rfl
    rw [hdata]
    simp only [pyFloatSign]
    rw [if_neg (digit_ne_minus c hcd), if_neg (digit_ne_plus c hcd)]
    have : c :: (cs ++ '.' :: zfill5 (round5Mag (|x| * 100000) % 100000)) =
        natChars (round5Mag (|x| * 100000) / 100000) ++
          '.' :: zfill5 (round5Mag (|x| * 100000) % 100000) := by
      rw [hcc]
      rfl
    rw [this, hmag]
    unfold roundTo5
    rw [if_neg hneg]
    simp

/-- Parsing a right-justified 5-decimal coordinate field yields the value
rounded to five decimal places, whatever the field width. -/
theorem pyFloat_rjust_fmtFixed5 (w : Nat) (x : Rat) :
    pyFloatChars (rjustC w (fmtFixed5 x).data) = some (roundTo5 x) := by
  unfold pyFloatChars rjustC
  rw [stripChars_pad, stripChars_nonws _ (fmtFixed5_nonws x), pyFloatSign_fmtFixed5]

/-- Parsing the `f"{x:>10.5f}"` coordinate field. -/
theorem pyFloat_fmtCoord (x : Rat) : pyFloat (fmtCoord x) = some (roundTo5 x) :=
  pyFloat_rjust_fmtFixed5 10 x

/-- A rational is representable with five decimal places when multiplying
by `100000` clears its denominator. -/
def isFixed5 (x : Rat) : Bool := (x * 100000).den == 1

/-- `round5Mag` of a natural number is that number. -/
theorem round5Mag_natCast (m : Nat) : round5Mag (m : Rat) = m := by
  unfold round5Mag
  have hfl : Rat.floor ((m : Rat) + 1 / 2) = (m : Int) := by
    have h1 : Rat.floor ((m : Rat) + 1 / 2) = ⌊(m : Rat) + 1 / 2⌋ := rfl
    rw [h1, add_comm, Int.floor_add_nat]
    norm_num
  rw [hfl]
  simp

/-- Rounding to five decimal places fixes every value already expressible
with five decimal places. -/
theorem roundTo5_eq_self (x : Rat) (h : isFixed5 x = true) : roundTo5 x = x := by
  have hden : (x * 100000).den = 1 := by simpa [isFixed5] using h
  have hq : (((x * 100000).num : Int) : Rat) = x * 100000 :=
    Rat.coe_int_num_of_den_eq_one hden
  have habs : |x| * 100000 = (((x * 100000).num.natAbs : Nat) : Rat) := by
    calc |x| * 100000 = |x * 100000| := by
          rw [abs_mul]
          norm_num
      _ = |(((x * 100000).num : Int) : Rat)| := by rw [hq]
      _ = (((x * 100000).num.natAbs : Nat) : Rat) := by
          rw [Int.cast_natAbs]
          exact Int.cast_abs.symm
  have hround : round5Mag (|x| * 100000) = (x * 100000).num.natAbs := by
    rw [habs, round5Mag_natCast]
  unfold roundTo5
  rw [hround]
  have hval : (((x * 100000).num.natAbs : Nat) : Rat) = |x| * 100000 := habs.symm
  by_cases hneg : x < 0
  · rw [if_pos hneg, hval, abs_of_neg hneg]
    field_simp
  · rw [if_neg hneg, hval, abs_of_nonneg (le_of_not_lt hneg)]
    field_simp

/-- Right-justifying to width `w` gives exactly width `w` when it fits. -/
theorem rjustC_len (w : Nat) (l : List Char) (h : l.length ≤ w) :
    (rjustC w l).length = w := by
  simp [rjustC]
  omega

/-- The 5-decimal rendering of the zero coordinate. -/
theorem fmtFixed5_zero : (fmtFixed5 (0 : Rat)).data = ['0', '.', '0', '0', '0', '0', '0'] := by
  have hk : round5Mag (|(0 : Rat)| * 100000) = 0 := by
    rw [show |(0 : Rat)| * 100000 = ((0 : Nat) : Rat) from by norm_num, round5Mag_natCast]
  simp only [fmtFixed5]
  rw [if_neg (by norm_num), hk]
  decide

/-- Rounding the zero coordinate. -/
theorem roundTo5_zero : roundTo5 (0 : Rat) = 0 := by
  have hk : round5Mag (|(0 : Rat)| * 100000) = 0 := by
    rw [show |(0 : Rat)| * 100000 = ((0 : Nat) : Rat) from by norm_num, round5Mag_natCast]
  unfold roundTo5
  rw [if_neg (by norm_num), hk]
  norm_num

/-- The zero coordinate is an exact five-decimal value. -/
theorem isFixed5_zero : isFixed5 (0 : Rat) = true := by
  unfold isFixed5
  rw [zero_mul]
  rfl

/-- Round trip of a formal charge through the two charge dictionaries, for
charges in the representable band. -/
theorem charge_code_round (ch : Int) (h1 : -3 ≤ ch) (h2 : ch ≤ 3) :
    assoc CHARGE_MAPPING ((CHARGE_MAPPING_REV ch).getD 0) = some ch ∧
      (intChars ((CHARGE_MAPPING_REV ch).getD 0)).length ≤ 3 := by
  interval_cases ch <;> exact ⟨by decide, by decide⟩

/-- Fixed-column slices of a serialized atom line. -/
theorem atom_slices (F1 F2 F3 E C3 PAD : List Char) (L : String)
    (hL : L.data = F1 ++ (F2 ++ (F3 ++ (' ' :: (E ++ (' ' :: ' ' :: (C3 ++ PAD)))))))
    (h1 : F1.length = 10) (h2 : F2.length = 10) (h3 : F3.length = 10)
    (hE : E.length = 3) (hC : C3.length = 3) :
    pySlice L 0 10 = ⟨F1⟩ ∧ pySlice L 10 20 = ⟨F2⟩ ∧ pySlice L 20 30 = ⟨F3⟩ ∧
      pySlice L 31 34 = ⟨E⟩ ∧ pySlice L 36 39 = ⟨C3⟩ := by
  have hLmk : ∀ (p f r : List Char), L.data = p ++ (f ++ r) → L = ⟨p ++ (f ++ r)⟩ := by
    intro p f r hpr
    cases L
    exact congrArg String.mk hpr
  refine ⟨?_, ?_, ?_, ?_, ?_⟩
  · rw [hLmk [] F1 (F2 ++ (F3 ++ (' ' :: (E ++ (' ' :: ' ' :: (C3 ++ PAD)))))) (by simp [hL])]
    exact slice_field _ _ _ _ _ (by simp) (by omega)
  · rw [hLmk F1 F2 (F3 ++ (' ' :: (E ++ (' ' :: ' ' :: (C3 ++ PAD))))) (by simp [hL])]
    exact slice_field _ _ _ _ _ (by simp [h1]) (by omega)
  · rw [hLmk (F1 ++ F2) F3 (' ' :: (E ++ (' ' :: ' ' :: (C3 ++ PAD))))
      (by simp [hL, List.append_assoc])]
    exact slice_field _ _ _ _ _ (by simp [h1, h2]) (by omega)
  · rw [hLmk (F1 ++ F2 ++ F3 ++ [' ']) E (' ' :: ' ' :: (C3 ++ PAD))
      (by simp [hL, List.append_assoc])]
    exact slice_field _ _ _ _ _ (by simp [h1, h2, h3]) (by omega)
  · rw [hLmk (F1 ++ F2 ++ F3 ++ [' '] ++ E ++ [' ', ' ']) C3 PAD
      (by simp [hL, List.append_assoc])]
    exact slice_field _ _ _ _ _ (by simp [h1, h2, h3, hE]) (by omega)

/-- Fixed-column slices of a serialized bond line. -/
theorem bond_slices (C1 C2 C3 PAD : List Char) (L : String)
    (hL : L.data = C1 ++ (C2 ++ (C3 ++ PAD)))
    (h1 : C1.length = 3) (h2 : C2.length = 3) (h3 : C3.length = 3) :
    pySlice L 0 3 = ⟨C1⟩ ∧ pySlice L 3 6 = ⟨C2⟩ ∧ pySlice L 6 9 = ⟨C3⟩ := by
  have hLmk : ∀ (p f r : List Char), L.data = p ++ (f ++ r) → L = ⟨p ++ (f ++ r)⟩ := by
    intro p f r hpr
    cases L
    exact congrArg String.mk hpr
  refine ⟨?_, ?_, ?_⟩
  · rw [hLmk [] C1 (C2 ++ (C3 ++ PAD)) (by simp [hL])]
    exact slice_field _ _ _ _ _ (by simp) (by omega)
  · rw [hLmk C1 C2 (C3 ++ PAD) (by simp [hL])]
    exact slice_field _ _ _ _ _ (by simp [h1]) (by omega)
  · rw [hLmk (C1 ++ C2) C3 PAD (by simp [hL, List.append_assoc])]
    exact slice_field _ _ _ _ _ (by simp [h1, h2]) (by omega)

/-- Parsing a serialized atom line recovers the rounded coordinates, the
stripped upper-cased element, and (for representable charges) the charge. -/
theorem parseAtomLine_atomLineOf (x y z : Rat) (el : String) (ch : Int)
    (hx : (fmtFixed5 x).data.length ≤ 10) (hy : (fmtFixed5 y).data.length ≤ 10)
    (hz : (fmtFixed5 z).data.length ≤ 10) (he : el.data.length ≤ 3)
    (h1 : -3 ≤ ch) (h2 : ch ≤ 3) :
    parseAtomLine (atomLineOf (x, y, z) el ch) =
      .ok (⟨roundTo5 x, roundTo5 y, roundTo5 z, pyUpper (pyStrip el), ch⟩, []) := by
  obtain ⟨hmap, hlen3⟩ := charge_code_round ch h1 h2
  have hdata : (atomLineOf (x, y, z) el ch).data =
      (fmtCoord x).data ++ ((fmtCoord y).data ++ ((fmtCoord z).data ++
        (' ' :: (rjustC 3 el.data ++ (' ' :: ' ' :: ((fmtInt3 ((CHARGE_MAPPING_REV ch).getD 0)).data ++
          ("  0  0  0  0  0  0  0  0  0  0" : String).data)))))) := by
    simp [atomLineOf, data_append, List.append_assoc,
      show (" " : String).data = [' '] from rfl, show ("  " : String).data = [' ', ' '] from rfl]
  obtain ⟨hs1, hs2, hs3, hs4, hs5⟩ := atom_slices (fmtCoord x).data (fmtCoord y).data
    (fmtCoord z).data (rjustC 3 el.data) (fmtInt3 ((CHARGE_MAPPING_REV ch).getD 0)).data
    ("  0  0  0  0  0  0  0  0  0  0" : String).data _ hdata
    (rjustC_len 10 _ hx) (rjustC_len 10 _ hy) (rjustC_len 10 _ hz)
    (rjustC_len 3 _ he) (rjustC_len 3 _ hlen3)
  have hs1' : pySlice (atomLineOf (x, y, z) el ch) 0 10 = fmtCoord x := hs1
  have hs2' : pySlice (atomLineOf (x, y, z) el ch) 10 20 = fmtCoord y := hs2
  have hs3' : pySlice (atomLineOf (x, y, z) el ch) 20 30 = fmtCoord z := hs3
  have hs4' : pySlice (atomLineOf (x, y, z) el ch) 31 34 = ⟨rjustC 3 el.data⟩ := hs4
  have hs5' : pySlice (atomLineOf (x, y, z) el ch) 36 39 =
      fmtInt3 ((CHARGE_MAPPING_REV ch).getD 0) := hs5
  have hstrip : pyStrip (⟨rjustC 3 el.data⟩ : String) = pyStrip el := by
    unfold pyStrip rjustC
    rw [stripChars_pad]
  unfold parseAtomLine
  rw [hs1', hs2', hs3', hs4', hs5', pyFloat_fmtCoord, pyFloat_fmtCoord, pyFloat_fmtCoord,
    hstrip, pyInt_fmtInt3]
  simp [hmap]

/-- Round trip of a bond type through the two bond dictionaries: single
bonds come back from code 6, double bonds from code 7, triple from 3, any
from 8, and the parse warns exactly on the any code. -/
theorem parseBondLine_bondLineOf (i j : Nat) (t : BondT) (hi : i + 1 ≤ 999)
    (hj : j + 1 ≤ 999) (ht : t ≠ .aromatic) :
    parseBondLine (bondLineOf (i, j, t)) =
      .ok ((i, j, t), if t = .any then [Warn.bond 8] else []) := by
  have hcode : assoc BOND_TYPE_MAPPING ((BOND_TYPE_MAPPING_REV t).getD 0) = some t ∧
      (intChars ((BOND_TYPE_MAPPING_REV t).getD 0)).length ≤ 3 := by
    cases t with
    | single => exact ⟨by decide, by decide⟩
    | double => exact ⟨by decide, by decide⟩
    | triple => exact ⟨by decide, by decide⟩
    | any => exact ⟨by decide, by decide⟩
    | aromatic => exact absurd rfl ht
  have hcast_i : ((i : Int) + 1) = ((i + 1 : Nat) : Int) := by push_cast; ring
  have hcast_j : ((j : Int) + 1) = ((j + 1 : Nat) : Int) := by push_cast; ring
  have hleni : (intChars ((i : Int) + 1)).length ≤ 3 := by
    rw [hcast_i, intChars_ofNat]
    exact natChars_len_le (i + 1) 3 (by omega) (by norm_num; omega)
  have hlenj : (intChars ((j : Int) + 1)).length ≤ 3 := by
    rw [hcast_j, intChars_ofNat]
    exact natChars_len_le (j + 1) 3 (by omega) (by norm_num; omega)
  have hdata : (bondLineOf (i, j, t)).data =
      (fmtInt3 ((i : Int) + 1)).data ++ ((fmtInt3 ((j : Int) + 1)).data ++
        ((fmtInt3 ((BOND_TYPE_MAPPING_REV t).getD 0)).data ++ ("  0  0  0  0" : String).data)) := by
    simp [bondLineOf, data_append, List.append_assoc]
  obtain ⟨hs1, hs2, hs3⟩ := bond_slices (fmtInt3 ((i : Int) + 1)).data
    (fmtInt3 ((j : Int) + 1)).data (fmtInt3 ((BOND_TYPE_MAPPING_REV t).getD 0)).data
    ("  0  0  0  0" : String).data _ hdata
    (rjustC_len 3 _ hleni) (rjustC_len 3 _ hlenj) (rjustC_len 3 _ hcode.2)
  have hs1' : pySlice (bondLineOf (i, j, t)) 0 3 = fmtInt3 ((i : Int) + 1) := hs1
  have hs2' : pySlice (bondLineOf (i, j, t)) 3 6 = fmtInt3 ((j : Int) + 1) := hs2
  have hs3' : pySlice (bondLineOf (i, j, t)) 6 9 =
      fmtInt3 ((BOND_TYPE_MAPPING_REV t).getD 0) := hs3
  have hmod_i : ((i : Int).emod 4294967296).toNat = i := by
    have h2 : ((i : Int)).emod 4294967296 = (i : Int) := Int.emod_eq_of_lt (by omega) (by omega)
    rw [h2]
    omega
  have hmod_j : ((j : Int).emod 4294967296).toNat = j := by
    have h2 : ((j : Int)).emod 4294967296 = (j : Int) := Int.emod_eq_of_lt (by omega) (by omega)
    rw [h2]
    omega
  have hw : (if t = BondT.any then [Warn.bond ((BOND_TYPE_MAPPING_REV t).getD 0)] else []) =
      (if t = BondT.any then [Warn.bond 8] else []) := by
    cases t <;> rfl
  unfold parseBondLine
  rw [hs1', hs2', hs3', pyInt_fmtInt3, pyInt_fmtInt3, pyInt_fmtInt3]
  simp [hcode.1, hw]
  exact ⟨hmod_i, hmod_j⟩

/-- Running the line loop over generated lines with pointwise-known results. -/
theorem parseAll_map_ok {α γ : Type} (f : String → Except PErr (γ × List Warn))
    (g : α → String) (res : α → γ) (w : α → List Warn) :
    ∀ xs : List α, (∀ u ∈ xs, f (g u) = .ok (res u, w u)) →
      parseAll f (xs.map g) = .ok (xs.map res, (xs.map w).flatten) := by
  intro xs
  induction xs with
  | nil => intro _; rfl
  | cons u us ih =>
    intro h
    have hu : f (g u) = .ok (res u, w u) := h u (by simp)
    have hus := ih (fun v hv => h v (by simp [hv]))
    simp only [List.map_cons, parseAll, hu, hus, List.flatten_cons]

/-- The atom-line block of the serialized line list under a Python slice. -/
theorem pySliceList_block1 {α : Type} (hd : α) (A rest : List α) :
    pySliceList (hd :: (A ++ rest)) 1 (1 + (A.length : Int)) = A := by
  unfold pySliceList pyIdx
  rw [if_neg (by omega), if_neg (by omega)]
  have hlen : (hd :: (A ++ rest)).length = 1 + A.length + rest.length := by
    simp
    omega
  have h1 : min ((1 : Int)).toNat (hd :: (A ++ rest)).length = 1 := by
    rw [hlen]
    omega
  have h2 : min ((1 + (A.length : Int))).toNat (hd :: (A ++ rest)).length = 1 + A.length := by
    rw [hlen]
    have : ((1 + (A.length : Int))).toNat = 1 + A.length := by omega
    rw [this]
    omega
  rw [h1, h2]
  have h3 : 1 + A.length - 1 = A.length := by omega
  rw [h3]
  have h4 : (hd :: (A ++ rest)).drop 1 = A ++ rest := by simp
  rw [h4, List.take_left]

/-- The bond-line block of the serialized line list under a Python slice. -/
theorem pySliceList_block2 {α : Type} (hd : α) (A B E : List α) :
    pySliceList (hd :: (A ++ (B ++ E))) (1 + (A.length : Int))
      (1 + (A.length : Int) + (B.length : Int)) = B := by
  unfold pySliceList pyIdx
  rw [if_neg (by omega), if_neg (by omega)]
  have hlen : (hd :: (A ++ (B ++ E))).length = 1 + A.length + B.length + E.length := by
    simp
    omega
  have h1 : min ((1 + (A.length : Int))).toNat (hd :: (A ++ (B ++ E))).length =
      1 + A.length := by
    rw [hlen]
    have : ((1 + (A.length : Int))).toNat = 1 + A.length := by omega
    rw [this]
    omega
  have h2 : min ((1 + (A.length : Int) + (B.length : Int))).toNat
      (hd :: (A ++ (B ++ E))).length = 1 + A.length + B.length := by
    rw [hlen]
    have : ((1 + (A.length : Int) + (B.length : Int))).toNat = 1 + A.length + B.length := by
      omega
    rw [this]
    omega
  rw [h1, h2]
  have h3 : 1 + A.length + B.length - (1 + A.length) = B.length := by omega
  rw [h3]
  have h4 : (hd :: (A ++ (B ++ E))).drop (1 + A.length) = B ++ E := by
    rw [add_comm, List.drop_succ_cons, List.drop_left]
  rw [h4, List.take_left]

/-- The exact line list `write_structure_to_ctab` produces for a
single-frame array with bond list `bl`. -/
def ctabLinesOf (a : AtomArrayM) (bl : List (Nat × Nat × BondT)) : List String :=
  [countsLineOf a.coord.length bl.length] ++
    (List.range a.coord.length).map (fun i =>
      atomLineOf (a.coord.getD i (0, 0, 0)) (a.element.getD i "")
        ((a.charge.getD (List.replicate a.coord.length 0)).getD i 0)) ++
    bl.map bondLineOf ++ ["M  END"]

/-- The serializer returns exactly `ctabLinesOf` on single-frame input with
an associated bond list. -/
theorem write_eq_ctabLinesOf (a : AtomArrayM) (bl : List (Nat × Nat × BondT))
    (h : a.bonds = some bl) :
    write_structure_to_ctab (.single a) = .ok (ctabLinesOf a bl, []) := by
  simp [write_structure_to_ctab, h, ctabLinesOf]

/-- The atom row the parser reconstructs from a serialized atom of the
given coordinates, element and in-band charge. -/
def parsedAtomOf (c : Rat × Rat × Rat) (el : String) (ch : Int) : AtomP :=
  ⟨roundTo5 c.1, roundTo5 c.2.1, roundTo5 c.2.2, pyUpper (pyStrip el), ch⟩

/-- Advisory warnings produced when re-parsing serialized bonds: exactly
one `ANY`-code warning per bond of type `ANY` (which serializes to code 8). -/
def bondWarnsOf (bl : List (Nat × Nat × BondT)) : List Warn :=
  (bl.map (fun b => if b.2.2 = BondT.any then [Warn.bond 8] else [])).flatten

/-- Well-formedness of a single-frame array for the serialize-then-parse
round trip: consistent annotation lengths, at most 999 atoms (bond endpoint
fields are 3 columns wide), at most 99 bonds (the counts-line bond field
must keep a leading space), elements of at most 3 characters, charges in
the representable band, coordinates fitting the 10-column field, and bond
endpoints inside the array with serializable bond types. -/
def RoundTripHyp (a : AtomArrayM) (bl : List (Nat × Nat × BondT)) (ch : List Int) : Prop :=
  a.element.length = a.coord.length ∧ ch.length = a.coord.length ∧
    a.coord.length ≤ 999 ∧ bl.length ≤ 99 ∧
    (∀ e ∈ a.element, e.data.length ≤ 3) ∧
    (∀ c ∈ ch, -3 ≤ c ∧ c ≤ 3) ∧
    (∀ p ∈ a.coord, (fmtFixed5 p.1).data.length ≤ 10 ∧
      (fmtFixed5 p.2.1).data.length ≤ 10 ∧ (fmtFixed5 p.2.2).data.length ≤ 10) ∧
    (∀ b ∈ bl, b.1 < a.coord.length ∧ b.2.1 < a.coord.length ∧ b.2.2 ≠ BondT.aromatic)

/-- The RoundTripHyp predicate is decidable, so witnesses can be checked by
evaluation. -/
instance (a : AtomArrayM) (bl : List (Nat × Nat × BondT)) (ch : List Int) :
    Decidable (RoundTripHyp a bl ch) := by
  unfold RoundTripHyp
  infer_instance

/-- Parsing the serializer's output of a well-formed single-frame array
reconstructs the bond list exactly, the charges exactly, the elements up to
stripping and upper-casing, and every coordinate rounded to five decimal
places; the only advisories are the `ANY`-bond-code ones. -/
theorem read_ctabLinesOf (a : AtomArrayM) (bl : List (Nat × Nat × BondT)) (ch : List Int)
    (hch : a.charge = some ch) (H : RoundTripHyp a bl ch) :
    read_structure_from_ctab (ctabLinesOf a bl) =
      .ok (⟨(List.range a.coord.length).map (fun i =>
          parsedAtomOf (a.coord.getD i (0, 0, 0)) (a.element.getD i "") (ch.getD i 0)),
        bl⟩, bondWarnsOf bl) := by
  obtain ⟨hel, hchl, hn999, hb99, helem3, hchband, hcoordfit, hbonds⟩ := H
  set n := a.coord.length with hn
  have hA : (List.range n).map (fun i =>
      atomLineOf (a.coord.getD i (0, 0, 0)) (a.element.getD i "")
        ((a.charge.getD (List.replicate n 0)).getD i 0)) =
      (List.range n).map (fun i =>
        atomLineOf (a.coord.getD i (0, 0, 0)) (a.element.getD i "") (ch.getD i 0)) := by
    rw [hch]
    rfl
  have hlines : ctabLinesOf a bl = countsLineOf n bl.length ::
      ((List.range n).map (fun i =>
        atomLineOf (a.coord.getD i (0, 0, 0)) (a.element.getD i "") (ch.getD i 0)) ++
        (bl.map bondLineOf ++ ["M  END"])) := by
    unfold ctabLinesOf
    rw [← hn, hA]
    simp [List.append_assoc]
  have hAlen : ((List.range n).map (fun i =>
      atomLineOf (a.coord.getD i (0, 0, 0)) (a.element.getD i "") (ch.getD i 0))).length = n := by
    simp
  have hBlen : (bl.map bondLineOf).length = bl.length := by simp
  have hatoms : parseAll parseAtomLine ((List.range n).map (fun i =>
      atomLineOf (a.coord.getD i (0, 0, 0)) (a.element.getD i "") (ch.getD i 0))) =
      .ok ((List.range n).map (fun i =>
        parsedAtomOf (a.coord.getD i (0, 0, 0)) (a.element.getD i "") (ch.getD i 0)),
        ((List.range n).map (fun _ => ([] : List Warn))).flatten) := by
    apply parseAll_map_ok parseAtomLine _ _ _ (List.range n)
    intro i hi
    have hilt : i < n := List.mem_range.mp hi
    have hcmem : a.coord.getD i (0, 0, 0) ∈ a.coord := by
      rw [List.getD_eq_getElem a.coord (0,0,0) hilt]
      exact List.getElem_mem hilt
    have hemem : a.element.getD i "" ∈ a.element := by
      have : i < a.element.length := by omega
      rw [List.getD_eq_getElem a.element "" this]
      exact List.getElem_mem this
    have hchmem : ch.getD i 0 ∈ ch := by
      have : i < ch.length := by omega
      rw [List.getD_eq_getElem ch 0 this]
      exact List.getElem_mem this
    obtain ⟨hf1, hf2, hf3⟩ := hcoordfit _ hcmem
    obtain ⟨hc1, hc2⟩ := hchband _ hchmem
    have := parseAtomLine_atomLineOf (a.coord.getD i (0, 0, 0)).1
      (a.coord.getD i (0, 0, 0)).2.1 (a.coord.getD i (0, 0, 0)).2.2
      (a.element.getD i "") (ch.getD i 0) hf1 hf2 hf3 (helem3 _ hemem) hc1 hc2
    simpa [parsedAtomOf] using this
  have hbondsP : parseAll parseBondLine (bl.map bondLineOf) =
      .ok (bl.map (fun b => b),
        (bl.map (fun b => if b.2.2 = BondT.any then [Warn.bond 8] else [])).flatten) := by
    apply parseAll_map_ok parseBondLine _ _ _ bl
    intro b hb
    obtain ⟨hb1, hb2, hb3⟩ := hbonds b hb
    have := parseBondLine_bondLineOf b.1 b.2.1 b.2.2 (by omega) (by omega) hb3
    simpa using this
  have hslice1 : pySliceList (countsLineOf n bl.length ::
      ((List.range n).map (fun i =>
        atomLineOf (a.coord.getD i (0, 0, 0)) (a.element.getD i "") (ch.getD i 0)) ++
        (bl.map bondLineOf ++ ["M  END"]))) 1 (1 + (n : Int)) =
      (List.range n).map (fun i =>
        atomLineOf (a.coord.getD i (0, 0, 0)) (a.element.getD i "") (ch.getD i 0)) := by
    rw [show ((n : Int)) = (((List.range n).map (fun i =>
      atomLineOf (a.coord.getD i (0, 0, 0)) (a.element.getD i "") (ch.getD i 0))).length : Int)
      from by rw [hAlen]]
    exact pySliceList_block1 _ _ _
  have hslice2 : pySliceList (countsLineOf n bl.length ::
      ((List.range n).map (fun i =>
        atomLineOf (a.coord.getD i (0, 0, 0)) (a.element.getD i "") (ch.getD i 0)) ++
        (bl.map bondLineOf ++ ["M  END"]))) (1 + (n : Int)) (1 + (n : Int) + (bl.length : Int)) =
      bl.map bondLineOf := by
    rw [show ((n : Int)) = (((List.range n).map (fun i =>
      atomLineOf (a.coord.getD i (0, 0, 0)) (a.element.getD i "") (ch.getD i 0))).length : Int)
      from by rw [hAlen],
      show ((bl.length : Int)) = ((bl.map bondLineOf).length : Int) from by rw [hBlen]]
    exact pySliceList_block2 _ _ _ _
  rw [hlines]
  unfold read_structure_from_ctab
  simp only [List.head?_cons]
  rw [getCounts_countsLineOf n bl.length hb99]
  simp only [hslice1, hslice2, hatoms, hbondsP, hAlen, hBlen,
    if_neg (show ¬((n : Int) < 0) by omega), if_neg (show ¬((bl.length : Int) < 0) by omega)]
  simp [bondWarnsOf]

/-- Indexing a list by `range` of its length is just mapping over it. -/
theorem map_range_getD {α β : Type} (l : List α) (d : α) (f : α → β) :
    (List.range l.length).map (fun i => f (l.getD i d)) = l.map f := by
  induction l with
  | nil => rfl
  | cons x xs ih =>
    rw [List.length_cons, List.range_succ_eq_map]
    simp only [List.map_cons, List.map_map]
    have h0 : f ((x :: xs).getD 0 d) = f x := rfl
    have h1 : ((fun i => f ((x :: xs).getD i d)) ∘ Nat.succ) = (fun i => f (xs.getD i d)) := rfl
    rw [h0, h1, ih]

/-- C6 (amended): for a single-frame array with an associated bond graph,
at most 999 atoms, at most 99 bonds, elements of at most three characters,
coordinates fitting the 10-column field, charges in −3..3 and bond types in
the serializable enumeration, parsing the serialized lines succeeds and
reconstructs every coordinate to five decimal places and reconstructs
charges and the bond list (endpoints and bond types) exactly. -/
theorem c6_amended (a : AtomArrayM) (bl : List (Nat × Nat × BondT)) (ch : List Int)
    (hb : a.bonds = some bl) (hc : a.charge = some ch) (H : RoundTripHyp a bl ch) :
    write_structure_to_ctab (.single a) = .ok (ctabLinesOf a bl, []) ∧
      ∃ S warns, read_structure_from_ctab (ctabLinesOf a bl) = .ok (S, warns) ∧
        S.atoms.map (fun p => (p.x, p.y, p.z)) =
          a.coord.map (fun c => (roundTo5 c.1, roundTo5 c.2.1, roundTo5 c.2.2)) ∧
        S.atoms.map (fun p => p.charge) = ch ∧
        S.bonds = bl := by
  refine ⟨write_eq_ctabLinesOf a bl hb, ?_⟩
  refine ⟨_, _, read_ctabLinesOf a bl ch hc H, ?_, ?_, rfl⟩
  · simp only [List.map_map]
    have hcomp : ((fun p : AtomP => (p.x, p.y, p.z)) ∘ (fun i =>
        parsedAtomOf (a.coord.getD i (0, 0, 0)) (a.element.getD i "") (ch.getD i 0))) =
        (fun i => ((fun c : Rat × Rat × Rat => (roundTo5 c.1, roundTo5 c.2.1, roundTo5 c.2.2))
          (a.coord.getD i (0, 0, 0)))) := rfl
    rw [hcomp]
    exact map_range_getD a.coord (0, 0, 0)
      (fun c : Rat × Rat × Rat => (roundTo5 c.1, roundTo5 c.2.1, roundTo5 c.2.2))
  · simp only [List.map_map]
    have hlen : a.coord.length = ch.length := H.2.1.symm
    have hcomp : ((fun p : AtomP => p.charge) ∘ (fun i =>
        parsedAtomOf (a.coord.getD i (0, 0, 0)) (a.element.getD i "") (ch.getD i 0))) =
        (fun i => (id (ch.getD i 0))) := rfl
    rw [hcomp, hlen]
    have h2 := map_range_getD ch (0 : Int) id
    rw [List.map_id] at h2
    exact h2

/-- C1 (amended): serialize-after-parse is the identity on the serializer's
normalized line format: lines written from a well-formed array whose
coordinates are exact 5-decimal values and whose elements are already
stripped and upper-case (so in particular bond-type codes are 3, 6, 7 or 8,
never 1 or 2, and the counts-line trailer is the writer's) parse and
re-serialize to exactly the same lines. -/
theorem c1_amended (a : AtomArrayM) (bl : List (Nat × Nat × BondT)) (ch : List Int)
    (hb : a.bonds = some bl) (hc : a.charge = some ch) (H : RoundTripHyp a bl ch)
    (hfix : ∀ p ∈ a.coord, isFixed5 p.1 = true ∧ isFixed5 p.2.1 = true ∧ isFixed5 p.2.2 = true)
    (hne : ∀ e ∈ a.element, pyUpper (pyStrip e) = e) :
    serializeAfterParse (ctabLinesOf a bl) = some (ctabLinesOf a bl) := by
  unfold serializeAfterParse
  rw [read_ctabLinesOf a bl ch hc H]
  have hn := H.1
  have hchl := H.2.1
  have hcoord : (List.range a.coord.length).map (fun i =>
      parsedAtomOf (a.coord.getD i (0, 0, 0)) (a.element.getD i "") (ch.getD i 0)) =
      (List.range a.coord.length).map (fun i =>
      parsedAtomOf (a.coord.getD i (0, 0, 0)) (a.element.getD i "") (ch.getD i 0)) := rfl
  have harr : structToArray ⟨(List.range a.coord.length).map (fun i =>
      parsedAtomOf (a.coord.getD i (0, 0, 0)) (a.element.getD i "") (ch.getD i 0)), bl⟩ = a := by
    have hco : ((List.range a.coord.length).map (fun i =>
        parsedAtomOf (a.coord.getD i (0, 0, 0)) (a.element.getD i "") (ch.getD i 0))).map
          (fun p : AtomP => (p.x, p.y, p.z)) = a.coord := by
      simp only [List.map_map]
      have hcomp : ((fun p : AtomP => (p.x, p.y, p.z)) ∘ (fun i =>
          parsedAtomOf (a.coord.getD i (0, 0, 0)) (a.element.getD i "") (ch.getD i 0))) =
          (fun i => ((fun c : Rat × Rat × Rat => (roundTo5 c.1, roundTo5 c.2.1, roundTo5 c.2.2))
            (a.coord.getD i (0, 0, 0)))) := rfl
      rw [hcomp]
      refine (map_range_getD a.coord (0, 0, 0)
        (fun c : Rat × Rat × Rat => (roundTo5 c.1, roundTo5 c.2.1, roundTo5 c.2.2))).trans ?_
      have h4 : ∀ p ∈ a.coord,
          (fun c : Rat × Rat × Rat => (roundTo5 c.1, roundTo5 c.2.1, roundTo5 c.2.2)) p =
            (fun c : Rat × Rat × Rat => c) p := by
        intro p hp
        obtain ⟨f1, f2, f3⟩ := hfix p hp
        simp only [roundTo5_eq_self _ f1, roundTo5_eq_self _ f2, roundTo5_eq_self _ f3]
      rw [List.map_congr_left h4, List.map_id']
    have hele : ((List.range a.coord.length).map (fun i =>
        parsedAtomOf (a.coord.getD i (0, 0, 0)) (a.element.getD i "") (ch.getD i 0))).map
          (fun p : AtomP => p.element) = a.element := by
      simp only [List.map_map]
      have hcomp : ((fun p : AtomP => p.element) ∘ (fun i =>
          parsedAtomOf (a.coord.getD i (0, 0, 0)) (a.element.getD i "") (ch.getD i 0))) =
          (fun i => ((fun e => pyUpper (pyStrip e)) (a.element.getD i ""))) := rfl
      rw [hcomp, ← hn]
      refine (map_range_getD a.element "" (fun e => pyUpper (pyStrip e))).trans ?_
      have h4 : ∀ e ∈ a.element,
          (fun e => pyUpper (pyStrip e)) e = (fun e : String => e) e := by
        intro e he
        simpa using hne e he
      rw [List.map_congr_left h4, List.map_id']
    have hchg : ((List.range a.coord.length).map (fun i =>
        parsedAtomOf (a.coord.getD i (0, 0, 0)) (a.element.getD i "") (ch.getD i 0))).map
          (fun p : AtomP => p.charge) = ch := by
      simp only [List.map_map]
      have hcomp : ((fun p : AtomP => p.charge) ∘ (fun i =>
          parsedAtomOf (a.coord.getD i (0, 0, 0)) (a.element.getD i "") (ch.getD i 0))) =
          (fun i => (id (ch.getD i 0))) := rfl
      rw [hcomp, show a.coord.length = ch.length from hchl.symm]
      have h2 := map_range_getD ch (0 : Int) id
      rw [List.map_id] at h2
      exact h2
    cases a with
    | mk coord element charge bonds =>
      simp only [structToArray]
      simp only at hco hele hchg hb hc
      congr 1 <;> simp_all
  simp only [harr, write_eq_ctabLinesOf a bl hb]


/-- Run the line loop over `n` copies of one line with a known result and
no advisory. -/
theorem parseAll_replicate_ok {γ : Type} (f : String → Except PErr (γ × List Warn))
    (l : String) (x : γ) (hf : f l = .ok (x, [])) :
    ∀ n : Nat, parseAll f (List.replicate n l) = .ok (List.replicate n x, []) := by
  intro n
  induction n with
  | zero => rfl
  | succ n ih =>
    simp [List.replicate_succ, parseAll, hf, ih]

/-- `getD` on a replicated list inside the bound. -/
theorem getD_replicate {α : Type} (n i : Nat) (x d : α) (h : i < n) :
    (List.replicate n x).getD i d = x := by
  rw [List.getD_eq_getElem _ _ (by simpa using h)]
  simp

/-- A `range`-indexed map that is constant on the range is a replicate. -/
theorem map_range_const {β : Type} (n : Nat) (f : Nat → β) (c : β)
    (h : ∀ i < n, f i = c) : (List.range n).map f = List.replicate n c := by
  rw [List.eq_replicate_iff]
  constructor
  · simp
  · intro b hb
    obtain ⟨i, hi, rfl⟩ := List.mem_map.mp hb
    exact h i (List.mem_range.mp hi)

/-- A 1000-atom single-frame array with one single bond between the last
two atoms; every field value is representable and every coordinate fits the
10-column field, but the 1-based endpoint 1000 overflows its 3-column
field. -/
def c6Array : AtomArrayM :=
  { coord := List.replicate 1000 ((0 : Rat), (0 : Rat), (0 : Rat))
    element := List.replicate 1000 "C"
    charge := some (List.replicate 1000 0)
    bonds := some [(998, 999, BondT.single)] }

/-- The atom line serialized for a carbon at the origin with charge 0
(rendered, it is `   0.00000   0.00000   0.00000   C    0` followed by the
ten zero fields). -/
def c6AtomLine : String := atomLineOf (0, 0, 0) "C" 0

/-- The atom row parsed back from the serialized origin carbon line. -/
def originCarbon : AtomP := ⟨0, 0, 0, "C", 0⟩

/-- The serializer's output for `c6Array`: the overflowing endpoint field
makes the bond line `9991000  6...`, whose columns no longer align. -/
def c6Lines : List String :=
  "1000  1     0  0  0  0  0  1 V2000" ::
    (List.replicate 1000 c6AtomLine ++ ["9991000  6  0  0  0  0", "M  END"])

/-- `write_structure_to_ctab` produces exactly `c6Lines` on `c6Array`. -/
theorem c6_write : write_structure_to_ctab (.single c6Array) = .ok (c6Lines, []) := by
  rw [write_eq_ctabLinesOf c6Array [(998, 999, BondT.single)] rfl]
  have hlines : ctabLinesOf c6Array [(998, 999, BondT.single)] = c6Lines := by
    unfold ctabLinesOf
    have hlen : c6Array.coord.length = 1000 := by
      show (List.replicate 1000 ((0 : Rat), (0 : Rat), (0 : Rat))).length = 1000
      exact List.length_replicate 1000 _
    rw [hlen]
    have hmap : (List.range 1000).map (fun i =>
        atomLineOf (c6Array.coord.getD i (0, 0, 0)) (c6Array.element.getD i "")
          ((c6Array.charge.getD (List.replicate 1000 0)).getD i 0)) =
        List.replicate 1000 c6AtomLine := by
      apply map_range_const
      intro i hi
      show atomLineOf ((List.replicate 1000 ((0 : Rat), (0 : Rat), (0 : Rat))).getD i (0, 0, 0))
        ((List.replicate 1000 "C").getD i "")
        ((List.replicate 1000 (0 : Int)).getD i 0) = c6AtomLine
      rw [getD_replicate 1000 i _ _ hi, getD_replicate 1000 i _ _ hi,
        getD_replicate 1000 i _ _ hi]
      rfl
    rw [hmap]
    have hbond : [(998, 999, BondT.single)].map bondLineOf = ["9991000  6  0  0  0  0"] := by
      decide
    rw [hbond, show ([(998, 999, BondT.single)] : List (Nat × Nat × BondT)).length = 1 from rfl,
      show countsLineOf 1000 1 = "1000  1     0  0  0  0  0  1 V2000" from by decide]
    show _ = "1000  1     0  0  0  0  0  1 V2000" ::
      (List.replicate 1000 c6AtomLine ++ ["9991000  6  0  0  0  0", "M  END"])
    rw [List.append_assoc, List.append_assoc, List.singleton_append, List.singleton_append]
  rw [hlines]

/-- Parsing `c6Lines`: the counts still split correctly, all 1000 atom
lines parse, but the bond line's misaligned columns give bond type code 0,
an advisory, endpoint 99, and `BondType.ANY` instead of the single bond. -/
theorem c6_read : read_structure_from_ctab c6Lines =
    .ok (⟨List.replicate 1000 originCarbon, [(998, 99, BondT.any)]⟩, [Warn.bond 0]) := by
  have hs1 : pySliceList c6Lines 1 (1 + (1000 : Int)) = List.replicate 1000 c6AtomLine := by
    have h := pySliceList_block1 ("1000  1     0  0  0  0  0  1 V2000")
      (List.replicate 1000 c6AtomLine) (["9991000  6  0  0  0  0", "M  END"])
    rw [List.length_replicate] at h
    exact h
  have hs2 : pySliceList c6Lines (1 + (1000 : Int)) (1 + (1000 : Int) + (1 : Int)) =
      ["9991000  6  0  0  0  0"] := by
    have h := pySliceList_block2 ("1000  1     0  0  0  0  0  1 V2000")
      (List.replicate 1000 c6AtomLine) (["9991000  6  0  0  0  0"]) (["M  END"])
    rw [List.length_replicate] at h
    exact h
  have hfit : (fmtFixed5 (0 : Rat)).data.length ≤ 10 := by
    rw [fmtFixed5_zero]
    decide
  have hatom : parseAtomLine c6AtomLine = .ok (originCarbon, []) := by
    have h := parseAtomLine_atomLineOf 0 0 0 "C" 0 hfit hfit hfit (by decide)
      (by decide) (by decide)
    rw [roundTo5_zero, show pyUpper (pyStrip "C") = "C" from by decide] at h
    exact h
  have hbond : parseBondLine "9991000  6  0  0  0  0" =
      .ok ((998, 99, BondT.any), [Warn.bond 0]) := by decide
  have hcounts : getCounts "1000  1     0  0  0  0  0  1 V2000" =
      .ok ((1000 : Int), (1 : Int)) := by decide
  have hparseB : parseAll parseBondLine ["9991000  6  0  0  0  0"] =
      .ok ([(998, 99, BondT.any)], [Warn.bond 0]) := by
    simp [parseAll, hbond]
  unfold read_structure_from_ctab
  simp only [show c6Lines.head? = some "1000  1     0  0  0  0  0  1 V2000" from rfl,
    hcounts, hs1, hs2, parseAll_replicate_ok parseAtomLine c6AtomLine originCarbon hatom 1000,
    hparseB]
  norm_num

/-- Claim C6 is false as stated: `c6Array` is a single-frame array with an
associated bond graph, every coordinate fits the 10-column field, every
charge is 0 and the single bond type is in the enumeration, yet parsing the
serialized lines yields a bond of type `ANY` (with a spurious endpoint and
an advisory) instead of the original single bond, because the 1-based
endpoint 1000 overflows its 3-column field. -/
theorem c6_counterexample :
    write_structure_to_ctab (.single c6Array) = .ok (c6Lines, []) ∧
      read_structure_from_ctab c6Lines =
        .ok (⟨List.replicate 1000 originCarbon, [(998, 99, BondT.any)]⟩, [Warn.bond 0]) ∧
      c6Array.bonds = some [(998, 999, BondT.single)] ∧
      BondT.any ≠ BondT.single ∧
      (fmtFixed5 (0 : Rat)).data.length ≤ 10 :=
  ⟨c6_write, c6_read, rfl, by decide, by rw [fmtFixed5_zero]; decide⟩

/-- A small well-formed array used to witness the amended round trips. -/
def wArray : AtomArrayM :=
  { coord := [((0 : Rat), (0 : Rat), (0 : Rat)), ((0 : Rat), (0 : Rat), (0 : Rat))]
    element := ["C", "O"]
    charge := some [1, -1]
    bonds := some [(0, 1, BondT.double)] }

/-- `wArray` satisfies the round-trip well-formedness bundle. -/
theorem wArray_hyp : RoundTripHyp wArray [(0, 1, BondT.double)] [1, -1] := by
  refine ⟨by decide, by decide, by decide, by decide, by decide, by decide, ?_, by decide⟩
  intro p hp
  have hp0 : p = ((0 : Rat), (0 : Rat), (0 : Rat)) := by
    have h2 := hp
    simp only [wArray, List.mem_cons, List.not_mem_nil, or_false] at h2
    rcases h2 with h | h <;> exact h
  subst hp0
  refine ⟨?_, ?_, ?_⟩ <;> (rw [fmtFixed5_zero]; decide)

/-- Witness for the amended C6 round trip at `wArray`. -/
theorem c6_witness :
    RoundTripHyp wArray [(0, 1, BondT.double)] [1, -1] ∧
      (write_structure_to_ctab (.single wArray) =
          .ok (ctabLinesOf wArray [(0, 1, BondT.double)], []) ∧
        ∃ S warns,
          read_structure_from_ctab (ctabLinesOf wArray [(0, 1, BondT.double)]) =
            .ok (S, warns) ∧
          S.atoms.map (fun p => (p.x, p.y, p.z)) =
            wArray.coord.map (fun c => (roundTo5 c.1, roundTo5 c.2.1, roundTo5 c.2.2)) ∧
          S.atoms.map (fun p => p.charge) = [1, -1] ∧
          S.bonds = [(0, 1, BondT.double)]) :=
  ⟨wArray_hyp, c6_amended wArray [(0, 1, BondT.double)] [1, -1] rfl rfl wArray_hyp⟩

/-- Witness for the amended C1 round trip at `wArray`. -/
theorem c1_witness :
    RoundTripHyp wArray [(0, 1, BondT.double)] [1, -1] ∧
      serializeAfterParse (ctabLinesOf wArray [(0, 1, BondT.double)]) =
        some (ctabLinesOf wArray [(0, 1, BondT.double)]) := by
  refine ⟨wArray_hyp, c1_amended wArray [(0, 1, BondT.double)] [1, -1] rfl rfl wArray_hyp ?_ ?_⟩
  · intro p hp
    have hp0 : p = ((0 : Rat), (0 : Rat), (0 : Rat)) := by
      have h2 := hp
      simp only [wArray, List.mem_cons, List.not_mem_nil, or_false] at h2
      rcases h2 with h | h <;> exact h
    subst hp0
    exact ⟨isFixed5_zero, isFixed5_zero, isFixed5_zero⟩
  · intro e he
    have h2 := he
    simp only [wArray, List.mem_cons, List.not_mem_nil, or_false] at h2
    rcases h2 with rfl | rfl <;> decide

/-- A well-formed ctab: two origin carbons and one single bond recorded
with the standard bond-type code 1. -/
def c1Lines : List String :=
  [countsLineOf 2 1, atomLineOf (0, 0, 0) "C" 0, atomLineOf (0, 0, 0) "C" 0,
    "  1  2  1  0  0  0  0", "M  END"]

/-- What serialize-after-parse returns for `c1Lines`: the single bond comes
back with code 6, because the reversed bond dictionary maps `SINGLE` to the
last code that produced it. -/
def c1LinesOut : List String :=
  [countsLineOf 2 1, atomLineOf (0, 0, 0) "C" 0, atomLineOf (0, 0, 0) "C" 0,
    "  1  2  6  0  0  0  0", "M  END"]

/-- The structure parsed from `c1Lines`. -/
def c1Parsed : ParsedStructure :=
  ⟨[originCarbon, originCarbon], [(0, 1, BondT.single)]⟩

/-- Parsing `c1Lines` succeeds with no advisory. -/
theorem c1_read : read_structure_from_ctab c1Lines = .ok (c1Parsed, []) := by
  have hfit : (fmtFixed5 (0 : Rat)).data.length ≤ 10 := by
    rw [fmtFixed5_zero]
    decide
  have hatom : parseAtomLine (atomLineOf (0, 0, 0) "C" 0) = .ok (originCarbon, []) := by
    have h := parseAtomLine_atomLineOf 0 0 0 "C" 0 hfit hfit hfit (by decide)
      (by decide) (by decide)
    rw [roundTo5_zero, show pyUpper (pyStrip "C") = "C" from by decide] at h
    exact h
  have hbond : parseBondLine "  1  2  1  0  0  0  0" =
      .ok ((0, 1, BondT.single), []) := by decide
  have hcounts : getCounts (countsLineOf 2 1) = .ok ((2 : Int), (1 : Int)) :=
    getCounts_countsLineOf 2 1 (by omega)
  have hs1 : pySliceList c1Lines 1 (1 + (2 : Int)) =
      [atomLineOf (0, 0, 0) "C" 0, atomLineOf (0, 0, 0) "C" 0] := by
    have h := pySliceList_block1 (countsLineOf 2 1)
      [atomLineOf (0, 0, 0) "C" 0, atomLineOf (0, 0, 0) "C" 0]
      ["  1  2  1  0  0  0  0", "M  END"]
    exact h
  have hs2 : pySliceList c1Lines (1 + (2 : Int)) (1 + (2 : Int) + (1 : Int)) =
      ["  1  2  1  0  0  0  0"] := by
    have h := pySliceList_block2 (countsLineOf 2 1)
      [atomLineOf (0, 0, 0) "C" 0, atomLineOf (0, 0, 0) "C" 0]
      ["  1  2  1  0  0  0  0"] ["M  END"]
    exact h
  have hpa : parseAll parseAtomLine
      [atomLineOf (0, 0, 0) "C" 0, atomLineOf (0, 0, 0) "C" 0] =
      .ok ([originCarbon, originCarbon], []) := by
    simp only [parseAll, hatom, List.append_nil, List.nil_append]
  have hpb : parseAll parseBondLine ["  1  2  1  0  0  0  0"] =
      .ok ([(0, 1, BondT.single)], []) := by
    simp only [parseAll, hbond, List.append_nil, List.nil_append]
  unfold read_structure_from_ctab
  simp only [show c1Lines.head? = some (countsLineOf 2 1) from rfl, hcounts, hs1, hs2,
    hpa, hpb]
  norm_num [c1Parsed]

/-- Claim C1 is false as stated: `c1Lines` is well-formed (it parses with
no advisory, every field value representable), yet serialize-after-parse
changes the bond-type code from 1 to 6 — a difference that trailing
whitespace normalization cannot explain. -/
theorem c1_counterexample :
    read_structure_from_ctab c1Lines = .ok (c1Parsed, []) ∧
      serializeAfterParse c1Lines = some c1LinesOut ∧
      c1LinesOut ≠ c1Lines ∧
      c1LinesOut.map pyRstrip ≠ c1Lines.map pyRstrip := by
  refine ⟨c1_read, ?_, ?_, ?_⟩
  · unfold serializeAfterParse
    rw [c1_read]
    have harr : write_structure_to_ctab (.single (structToArray c1Parsed)) =
        .ok (ctabLinesOf (structToArray c1Parsed) [(0, 1, BondT.single)], []) :=
      write_eq_ctabLinesOf _ _ rfl
    have hout : ctabLinesOf (structToArray c1Parsed) [(0, 1, BondT.single)] = c1LinesOut := by
      unfold ctabLinesOf
      have hbl : [(0, 1, BondT.single)].map bondLineOf = ["  1  2  6  0  0  0  0"] := by
        decide
      rw [hbl]
      rfl
    simp only [harr, hout]
  · intro h
    have h3 := congrArg (fun l => l.getD 3 "") h
    revert h3
    decide
  · intro h
    have h3 := congrArg (fun l => l.getD 3 "") h
    revert h3
    decide

/-- Bound on the rendered width of small integers. -/
theorem intChars_len3 (c : Int) (h1 : -99 ≤ c) (h2 : c ≤ 999) : (intChars c).length ≤ 3 := by
  unfold intChars
  by_cases hneg : c < 0
  · rw [if_pos hneg]
    have : (natChars c.natAbs).length ≤ 2 :=
      natChars_len_le c.natAbs 2 (by omega) (by norm_num; omega)
    simp only [List.length_cons]
    omega
  · rw [if_neg hneg]
    exact natChars_len_le c.natAbs 3 (by omega) (by norm_num; omega)

/-- The all-zero coordinate field parses to zero. -/
theorem pyFloat_zeroField : pyFloat "   0.00000" = some 0 := by
  have h : ("   0.00000" : String).data = rjustC 10 (fmtFixed5 (0 : Rat)).data := by
    rw [fmtFixed5_zero]
    decide
  show pyFloatChars ("   0.00000" : String).data = some 0
  rw [h, pyFloat_rjust_fmtFixed5, roundTo5_zero]

/-- An atom line for an origin carbon with a raw charge-code field. -/
def atomLineRaw (c : Int) : String :=
  "   0.00000   0.00000   0.00000   C  " ++ fmtInt3 c ++ "  0  0  0  0  0  0  0  0  0  0"

/-- Parsing an atom line with an arbitrary charge code: recognized codes
map through `CHARGE_MAPPING`, anything else warns and substitutes 0. -/
theorem parseAtomLineRaw (c : Int) (h1 : -99 ≤ c) (h2 : c ≤ 999) :
    parseAtomLine (atomLineRaw c) =
      .ok (⟨0, 0, 0, "C", (assoc CHARGE_MAPPING c).getD 0⟩,
        if (assoc CHARGE_MAPPING c).isSome then [] else [Warn.charge c]) := by
  have hdata : (atomLineRaw c).data =
      ("   0.00000" : String).data ++ (("   0.00000" : String).data ++
        (("   0.00000" : String).data ++ (' ' :: ([' ', ' ', 'C'] ++ (' ' :: ' ' ::
          ((fmtInt3 c).data ++ ("  0  0  0  0  0  0  0  0  0  0" : String).data)))))) := by
    show (("   0.00000   0.00000   0.00000   C  " : String) ++ fmtInt3 c ++
      ("  0  0  0  0  0  0  0  0  0  0" : String)).data = _
    rw [data_append, data_append]
    rw [show ("   0.00000   0.00000   0.00000   C  " : String).data =
      ("   0.00000" : String).data ++ (("   0.00000" : String).data ++
        (("   0.00000" : String).data ++ (' ' :: ([' ', ' ', 'C'] ++ [' ', ' '])))) from by decide]
    simp [List.append_assoc]
  obtain ⟨hs1, hs2, hs3, hs4, hs5⟩ := atom_slices ("   0.00000" : String).data
    ("   0.00000" : String).data ("   0.00000" : String).data [' ', ' ', 'C']
    (fmtInt3 c).data ("  0  0  0  0  0  0  0  0  0  0" : String).data _ hdata
    (by decide) (by decide) (by decide) (by decide) (rjustC_len 3 _ (intChars_len3 c h1 h2))
  have hs1' : pySlice (atomLineRaw c) 0 10 = "   0.00000" := hs1
  have hs2' : pySlice (atomLineRaw c) 10 20 = "   0.00000" := hs2
  have hs3' : pySlice (atomLineRaw c) 20 30 = "   0.00000" := hs3
  have hs4' : pySlice (atomLineRaw c) 31 34 = ⟨[' ', ' ', 'C']⟩ := hs4
  have hs5' : pySlice (atomLineRaw c) 36 39 = fmtInt3 c := hs5
  unfold parseAtomLine
  rw [hs1', hs2', hs3', hs4', hs5', pyFloat_zeroField, pyInt_fmtInt3,
    show pyUpper (pyStrip (⟨[' ', ' ', 'C']⟩ : String)) = "C" from by decide]
  cases hassoc : assoc CHARGE_MAPPING c with
  | none => simp [hassoc]
  | some ch => simp [hassoc]

/-- A bond line between atoms 1 and 2 with a raw bond-type code field. -/
def bondLineRaw (c : Int) : String := "  1  2" ++ fmtInt3 c ++ "  0  0  0  0"

/-- Parsing a bond line with an arbitrary bond-type code: the mapped type
defaults to `ANY`, and the advisory fires exactly when the result is
`ANY` — including for the recognized code 8. -/
theorem parseBondLineRaw (c : Int) (h1 : -99 ≤ c) (h2 : c ≤ 999) :
    parseBondLine (bondLineRaw c) =
      .ok ((0, 1, (assoc BOND_TYPE_MAPPING c).getD BondT.any),
        if (assoc BOND_TYPE_MAPPING c).getD BondT.any = BondT.any then [Warn.bond c]
        else []) := by
  have hdata : (bondLineRaw c).data =
      ("  1" : String).data ++ (("  2" : String).data ++
        ((fmtInt3 c).data ++ ("  0  0  0  0" : String).data)) := by
    show (("  1  2" : String) ++ fmtInt3 c ++ ("  0  0  0  0" : String)).data = _
    rw [data_append, data_append]
    rw [show ("  1  2" : String).data = ("  1" : String).data ++ ("  2" : String).data
      from by decide]
    simp [List.append_assoc]
  obtain ⟨hs1, hs2, hs3⟩ := bond_slices ("  1" : String).data ("  2" : String).data
    (fmtInt3 c).data ("  0  0  0  0" : String).data _ hdata
    (by decide) (by decide) (rjustC_len 3 _ (intChars_len3 c h1 h2))
  have hs1' : pySlice (bondLineRaw c) 0 3 = "  1" := hs1
  have hs2' : pySlice (bondLineRaw c) 3 6 = "  2" := hs2
  have hs3' : pySlice (bondLineRaw c) 6 9 = fmtInt3 c := hs3
  unfold parseBondLine
  rw [hs3', pyInt_fmtInt3, hs1', hs2',
    show pyInt ("  1" : String) = some 1 from by decide,
    show pyInt ("  2" : String) = some 2 from by decide]
  norm_num

/-- A ctab with two origin carbons and one bond carrying a raw type code. -/
def c2LinesOf (c : Int) : List String :=
  [countsLineOf 2 1, atomLineOf (0, 0, 0) "C" 0, atomLineOf (0, 0, 0) "C" 0,
    bondLineRaw c, "M  END"]

/-- Reading `c2LinesOf c`: both atoms parse, the bond type is the mapped
code (defaulting to `ANY`), and the advisory fires exactly when the mapped
value is `ANY`. -/
theorem read_c2LinesOf (c : Int) (h1 : -99 ≤ c) (h2 : c ≤ 999) :
    read_structure_from_ctab (c2LinesOf c) =
      .ok (⟨[originCarbon, originCarbon],
          [(0, 1, (assoc BOND_TYPE_MAPPING c).getD BondT.any)]⟩,
        if (assoc BOND_TYPE_MAPPING c).getD BondT.any = BondT.any then [Warn.bond c]
        else []) := by
  have hfit : (fmtFixed5 (0 : Rat)).data.length ≤ 10 := by
    rw [fmtFixed5_zero]
    decide
  have hatom : parseAtomLine (atomLineOf (0, 0, 0) "C" 0) = .ok (originCarbon, []) := by
    have h := parseAtomLine_atomLineOf 0 0 0 "C" 0 hfit hfit hfit (by decide)
      (by decide) (by decide)
    rw [roundTo5_zero, show pyUpper (pyStrip "C") = "C" from by decide] at h
    exact h
  have hcounts : getCounts (countsLineOf 2 1) = .ok ((2 : Int), (1 : Int)) :=
    getCounts_countsLineOf 2 1 (by omega)
  have hs1 : pySliceList (c2LinesOf c) 1 (1 + (2 : Int)) =
      [atomLineOf (0, 0, 0) "C" 0, atomLineOf (0, 0, 0) "C" 0] :=
    pySliceList_block1 (countsLineOf 2 1)
      [atomLineOf (0, 0, 0) "C" 0, atomLineOf (0, 0, 0) "C" 0]
      [bondLineRaw c, "M  END"]
  have hs2 : pySliceList (c2LinesOf c) (1 + (2 : Int)) (1 + (2 : Int) + (1 : Int)) =
      [bondLineRaw c] :=
    pySliceList_block2 (countsLineOf 2 1)
      [atomLineOf (0, 0, 0) "C" 0, atomLineOf (0, 0, 0) "C" 0]
      [bondLineRaw c] ["M  END"]
  have hpa : parseAll parseAtomLine
      [atomLineOf (0, 0, 0) "C" 0, atomLineOf (0, 0, 0) "C" 0] =
      .ok ([originCarbon, originCarbon], []) := by
    simp only [parseAll, hatom, List.append_nil, List.nil_append]
  have hpb : parseAll parseBondLine [bondLineRaw c] =
      .ok ([(0, 1, (assoc BOND_TYPE_MAPPING c).getD BondT.any)],
        if (assoc BOND_TYPE_MAPPING c).getD BondT.any = BondT.any then [Warn.bond c]
        else []) := by
    simp only [parseAll, parseBondLineRaw c h1 h2, List.append_nil]
  unfold read_structure_from_ctab
  simp only [show (c2LinesOf c).head? = some (countsLineOf 2 1) from rfl, hcounts,
    hs1, hs2, hpa, hpb]
  norm_num

/-- C2: the bond-type dictionary does map 1→single, 2→double, 3→triple,
6→single, 7→double, 8→any, and any other code yields `ANY` without
aborting — but the advisory fires whenever the mapped value is `ANY`,
i.e. exactly when the code is outside {1, 2, 3, 6, 7}; in particular the
recognized code 8 still warns, so "warns iff unrecognized" is false. -/
theorem c2_amended (c : Int) (h1 : -99 ≤ c) (h2 : c ≤ 999) :
    read_structure_from_ctab (c2LinesOf c) =
      .ok (⟨[originCarbon, originCarbon],
          [(0, 1, (assoc BOND_TYPE_MAPPING c).getD BondT.any)]⟩,
        if (assoc BOND_TYPE_MAPPING c).getD BondT.any = BondT.any then [Warn.bond c]
        else []) ∧
    ([1, 2, 3, 6, 7, 8] : List Int).map
        (fun k => (assoc BOND_TYPE_MAPPING k).getD BondT.any) =
      [BondT.single, BondT.double, BondT.triple, BondT.single, BondT.double,
        BondT.any] ∧
    ((assoc BOND_TYPE_MAPPING c).getD BondT.any = BondT.any ↔
      c ∉ ([1, 2, 3, 6, 7] : List Int)) := by
  refine ⟨read_c2LinesOf c h1 h2, by decide, ?_, ?_⟩
  · intro h hm
    simp only [List.mem_cons, List.not_mem_nil, or_false] at hm
    rcases hm with rfl | rfl | rfl | rfl | rfl <;> revert h <;> decide
  · intro hm
    simp only [List.mem_cons, List.not_mem_nil, or_false, not_or] at hm
    obtain ⟨n1, n2, n3, n6, n7⟩ := hm
    by_cases h8 : c = 8
    · subst h8
      decide
    · simp only [BOND_TYPE_MAPPING, assoc]
      rw [if_neg n1, if_neg n2, if_neg n3, if_neg n6, if_neg n7, if_neg h8]
      rfl

/-- Claim C2's "warns iff unrecognized" direction is false: bond-type code
8 is in the dictionary (it maps to `ANY`), yet parsing a bond line with
code 8 still emits the advisory. -/
theorem c2_counterexample :
    read_structure_from_ctab (c2LinesOf 8) =
      .ok (⟨[originCarbon, originCarbon], [(0, 1, BondT.any)]⟩, [Warn.bond 8]) ∧
    assoc BOND_TYPE_MAPPING 8 = some BondT.any := by
  refine ⟨?_, by decide⟩
  have h := read_c2LinesOf 8 (by decide) (by decide)
  have h2 : (assoc BOND_TYPE_MAPPING (8 : Int)).getD BondT.any = BondT.any := by decide
  simpa [h2] using h

/-- Witness for the amended C2 at the unrecognized code 4. -/
theorem c2_witness :
    (-99 : Int) ≤ 4 ∧ (4 : Int) ≤ 999 ∧
    (read_structure_from_ctab (c2LinesOf 4) =
        .ok (⟨[originCarbon, originCarbon],
            [(0, 1, (assoc BOND_TYPE_MAPPING 4).getD BondT.any)]⟩,
          if (assoc BOND_TYPE_MAPPING 4).getD BondT.any = BondT.any then [Warn.bond 4]
          else []) ∧
      ([1, 2, 3, 6, 7, 8] : List Int).map
          (fun k => (assoc BOND_TYPE_MAPPING k).getD BondT.any) =
        [BondT.single, BondT.double, BondT.triple, BondT.single, BondT.double,
          BondT.any] ∧
      ((assoc BOND_TYPE_MAPPING (4 : Int)).getD BondT.any = BondT.any ↔
        (4 : Int) ∉ ([1, 2, 3, 6, 7] : List Int))) :=
  ⟨by decide, by decide, c2_amended 4 (by decide) (by decide)⟩

/-- A ctab declaring one atom whose line carries a raw charge-code field. -/
def c4LinesOf (c : Int) : List String :=
  [countsLineOf 1 0, atomLineRaw c, "M  END"]

/-- Reading `c4LinesOf c`: the atom parses with the mapped formal charge
(default 0), warning exactly when the code is not in the dictionary. -/
theorem read_c4LinesOf (c : Int) (h1 : -99 ≤ c) (h2 : c ≤ 999) :
    read_structure_from_ctab (c4LinesOf c) =
      .ok (⟨[⟨0, 0, 0, "C", (assoc CHARGE_MAPPING c).getD 0⟩], []⟩,
        if (assoc CHARGE_MAPPING c).isSome then [] else [Warn.charge c]) := by
  have hcounts : getCounts (countsLineOf 1 0) = .ok ((1 : Int), (0 : Int)) :=
    getCounts_countsLineOf 1 0 (by omega)
  have hs1 : pySliceList (c4LinesOf c) 1 (1 + (1 : Int)) = [atomLineRaw c] :=
    pySliceList_block1 (countsLineOf 1 0) [atomLineRaw c] ["M  END"]
  have hs2 : pySliceList (c4LinesOf c) (1 + (1 : Int)) (1 + (1 : Int) + (0 : Int)) =
      ([] : List String) :=
    pySliceList_block2 (countsLineOf 1 0) [atomLineRaw c] [] ["M  END"]
  have hpa : parseAll parseAtomLine [atomLineRaw c] =
      .ok ([⟨0, 0, 0, "C", (assoc CHARGE_MAPPING c).getD 0⟩],
        if (assoc CHARGE_MAPPING c).isSome then [] else [Warn.charge c]) := by
    simp only [parseAll, parseAtomLineRaw c h1 h2, List.append_nil]
  unfold read_structure_from_ctab
  simp only [show (c4LinesOf c).head? = some (countsLineOf 1 0) from rfl, hcounts,
    hs1, hs2, hpa]
  norm_num [parseAll]

/-- C4: the charge dictionary maps codes 0, 1, 2, 3, 5, 6, 7 to formal
charges 0, +3, +2, +1, −1, −2, −3; any other code (including the reserved
code 4) warns, assigns formal charge 0, and parsing continues to a
successful result. -/
theorem c4_charge_mapping (c : Int) (h1 : -99 ≤ c) (h2 : c ≤ 999) :
    read_structure_from_ctab (c4LinesOf c) =
      .ok (⟨[⟨0, 0, 0, "C", (assoc CHARGE_MAPPING c).getD 0⟩], []⟩,
        if (assoc CHARGE_MAPPING c).isSome then [] else [Warn.charge c]) ∧
    ([0, 1, 2, 3, 5, 6, 7] : List Int).map (fun k => (assoc CHARGE_MAPPING k).getD 0) =
      [0, 3, 2, 1, -1, -2, -3] ∧
    ((assoc CHARGE_MAPPING c).isSome = true ↔
      c ∈ ([0, 1, 2, 3, 5, 6, 7] : List Int)) := by
  refine ⟨read_c4LinesOf c h1 h2, by decide, ?_, ?_⟩
  · intro h
    by_contra hm
    simp only [List.mem_cons, List.not_mem_nil, or_false, not_or] at hm
    obtain ⟨n0, n1, n2, n3, n5, n6, n7⟩ := hm
    simp only [CHARGE_MAPPING, assoc] at h
    rw [if_neg n0, if_neg n1, if_neg n2, if_neg n3, if_neg n5, if_neg n6, if_neg n7] at h
    exact absurd h (by decide)
  · intro hm
    simp only [List.mem_cons, List.not_mem_nil, or_false] at hm
    rcases hm with rfl | rfl | rfl | rfl | rfl | rfl | rfl <;> decide

/-- Witness for C4 at the reserved charge code 4. -/
theorem c4_witness :
    (-99 : Int) ≤ 4 ∧ (4 : Int) ≤ 999 ∧
    (read_structure_from_ctab (c4LinesOf 4) =
        .ok (⟨[⟨0, 0, 0, "C", (assoc CHARGE_MAPPING 4).getD 0⟩], []⟩,
          if (assoc CHARGE_MAPPING 4).isSome then [] else [Warn.charge 4]) ∧
      ([0, 1, 2, 3, 5, 6, 7] : List Int).map
          (fun k => (assoc CHARGE_MAPPING k).getD 0) = [0, 3, 2, 1, -1, -2, -3] ∧
      ((assoc CHARGE_MAPPING (4 : Int)).isSome = true ↔
        (4 : Int) ∈ ([0, 1, 2, 3, 5, 6, 7] : List Int))) :=
  ⟨by decide, by decide, c4_charge_mapping 4 (by decide) (by decide)⟩

/-- C3 amended: an error from the counts line (a `ValueError` from `int()`
or an `IndexError` from a missing token — not a `MalformedRecordError`)
propagates out of `read_structure_from_ctab` with no partial result; but
fewer atom or bond lines than the counts declare does NOT fail: the Python
slices silently shorten and the pre-allocated default rows remain, as the
one-line example with one declared atom and no atom line shows. -/
theorem c3_amended :
    (∀ (lines : List String) (l0 : String) (e : PErr),
      lines.head? = some l0 → getCounts l0 = .error e →
        read_structure_from_ctab lines = .error e) ∧
    getCounts "M  END" = .error .valueError ∧
    getCounts "" = .error .indexError ∧
    read_structure_from_ctab ["  1  0     0  0  0  0  0  1 V2000"] =
      .ok (⟨[defaultAtomP], []⟩, []) := by
  refine ⟨?_, by decide, by decide, by decide⟩
  intro lines l0 e h1 h2
  cases lines with
  | nil => simp at h1
  | cons a rest =>
    simp only [List.head?_cons, Option.some.injEq] at h1
    subst h1
    unfold read_structure_from_ctab
    simp only [List.head?_cons, h2]

/-- Claim C3 is false as stated: the counts line declares one atom, the
input has no atom line at all, yet the call succeeds and returns a partial
result containing one fabricated default atom row. -/
theorem c3_counterexample :
    getCounts "  1  0     0  0  0  0  0  1 V2000" = .ok ((1 : Int), (0 : Int)) ∧
    read_structure_from_ctab ["  1  0     0  0  0  0  0  1 V2000"] =
      .ok (⟨[defaultAtomP], []⟩, []) := by
  exact ⟨by decide, by decide⟩

/-- Witness for the amended C3's propagation conjunct at a concrete bad
counts line. -/
theorem c3_witness :
    (["M  END", "x"] : List String).head? = some "M  END" ∧
    getCounts "M  END" = .error .valueError ∧
    read_structure_from_ctab ["M  END", "x"] = .error .valueError :=
  ⟨rfl, by decide, c3_amended.1 ["M  END", "x"] "M  END" .valueError rfl (by decide)⟩

/-- C5: `write_structure_to_ctab` fails exactly on an `AtomArrayStack`
(`TypeError`) or on an array without an associated bond list
(`BadStructureError`); with a bond list present it succeeds — in
particular with an associated but empty bond list. -/
theorem c5_write_failures :
    (∀ s : Nat, write_structure_to_ctab (.stack s) = .error .typeError) ∧
    (∀ a : AtomArrayM, a.bonds = none →
      write_structure_to_ctab (.single a) = .error .badStructureError) ∧
    (∀ (a : AtomArrayM) (bl : List (Nat × Nat × BondT)), a.bonds = some bl →
      write_structure_to_ctab (.single a) = .ok (ctabLinesOf a bl, [])) ∧
    write_structure_to_ctab
        (.single ⟨[((0 : Rat), (0 : Rat), (0 : Rat))], ["C"], some [0], some []⟩) =
      .ok ([countsLineOf 1 0, atomLineOf ((0 : Rat), (0 : Rat), (0 : Rat)) "C" 0,
        "M  END"], []) := by
  refine ⟨fun s => rfl, ?_, write_eq_ctabLinesOf, ?_⟩
  · intro a h
    simp [write_structure_to_ctab, h]
  · rw [write_eq_ctabLinesOf _ [] rfl]
    rfl

/-- Witness for C5: a two-frame stack, an array with a null bond list, and
an array with an empty but present bond list. -/
theorem c5_witness :
    write_structure_to_ctab (.stack 2) = .error .typeError ∧
    (⟨[], [], none, none⟩ : AtomArrayM).bonds = none ∧
    write_structure_to_ctab (.single ⟨[], [], none, none⟩) =
      .error .badStructureError ∧
    (⟨[], [], none, some []⟩ : AtomArrayM).bonds = some [] ∧
    write_structure_to_ctab (.single ⟨[], [], none, some []⟩) =
      .ok (ctabLinesOf ⟨[], [], none, some []⟩ [], []) :=
  ⟨c5_write_failures.1 2, rfl, c5_write_failures.2.1 _ rfl, rfl,
    c5_write_failures.2.2.1 _ [] rfl⟩

/-- C7: a missing charge annotation serializes identically to an all-zero
one; a formal charge beyond ±3 reverse-maps to code 0; a bond type outside
the writer's enumeration (aromatic) reverse-maps to code 0; and the
serialize path emits no warning on any successful call. -/
theorem c7_write_defaults :
    (∀ a : AtomArrayM, a.charge = none →
      write_structure_to_ctab (.single a) =
        write_structure_to_ctab
          (.single { a with charge := some (List.replicate a.coord.length 0) })) ∧
    (∀ c : Int, c < -3 ∨ 3 < c → (CHARGE_MAPPING_REV c).getD 0 = 0) ∧
    (BOND_TYPE_MAPPING_REV BondT.aromatic).getD 0 = 0 ∧
    (∀ inp lines ws, write_structure_to_ctab inp = .ok (lines, ws) → ws = []) := by
  refine ⟨?_, ?_, by decide, ?_⟩
  · intro a hc
    cases hb : a.bonds with
    | none => simp [write_structure_to_ctab, hb]
    | some bl => simp [write_structure_to_ctab, hb, hc]
  · intro c h
    rw [show CHARGE_MAPPING_REV c =
      assoc [((-3 : Int), (7 : Int)), (-2, 6), (-1, 5), (1, 3), (2, 2), (3, 1), (0, 0)] c
      from rfl]
    simp only [assoc]
    rw [if_neg (by omega), if_neg (by omega), if_neg (by omega), if_neg (by omega),
      if_neg (by omega), if_neg (by omega), if_neg (by omega)]
    rfl
  · intro inp lines ws h
    cases inp with
    | stack s => exact absurd h (by simp [write_structure_to_ctab])
    | single a =>
      cases hb : a.bonds with
      | none => simp [write_structure_to_ctab, hb] at h
      | some bl =>
        rw [write_eq_ctabLinesOf a bl hb] at h
        have h1 := h
        rw [Except.ok.injEq, Prod.mk.injEq] at h1
        exact h1.2.symm

/-- Witness for C7: an origin carbon with absent charge annotation, the
out-of-range formal charge +5, and a successful write call. -/
theorem c7_witness :
    (⟨[((0 : Rat), (0 : Rat), (0 : Rat))], ["C"], none, some []⟩ : AtomArrayM).charge =
      none ∧
    write_structure_to_ctab
        (.single ⟨[((0 : Rat), (0 : Rat), (0 : Rat))], ["C"], none, some []⟩) =
      write_structure_to_ctab
        (.single ⟨[((0 : Rat), (0 : Rat), (0 : Rat))], ["C"], some [0], some []⟩) ∧
    ((5 : Int) < -3 ∨ (3 : Int) < 5) ∧
    (CHARGE_MAPPING_REV 5).getD 0 = 0 ∧
    write_structure_to_ctab (.single ⟨[], [], none, some []⟩) =
      .ok (ctabLinesOf ⟨[], [], none, some []⟩ [], []) ∧
    (([] : List Warn) = []) :=
  ⟨rfl, c7_write_defaults.1 _ rfl, Or.inr (by decide),
    c7_write_defaults.2.1 5 (Or.inr (by decide)),
    write_eq_ctabLinesOf _ [] rfl,
    c7_write_defaults.2.2.2 (.single ⟨[], [], none, some []⟩) _ []
      (write_eq_ctabLinesOf _ [] rfl)⟩

/-! ### `chains.py`: chain starts, chain count and chain iteration -/

/-- The `np.where(chain_ids[:-1] != chain_ids[1:])[0] + 1` expression of
`get_chain_starts`: the positions (shifted by one) at which the chain-ID
annotation changes. -/
def chainChanges (ids : List String) : List Nat :=
  ((List.range (ids.length - 1)).filter
    (fun j => decide (¬ ids.getD j "" = ids.getD (j + 1) ""))).map (fun j => j + 1)

/-- `get_chain_starts` of `chains.py`: `np.append([0], chain_changes)`.
The atom array is modelled as a list `arr` of atoms together with their
chain-ID annotation `cid`. -/
def get_chain_starts {α : Type} (cid : α → String) (arr : List α) : List Nat :=
  0 :: chainChanges (arr.map cid)

/-- `get_chain_count` of `chains.py`: the length of the start array. -/
def get_chain_count {α : Type} (cid : α → String) (arr : List α) : Nat :=
  (get_chain_starts cid arr).length

/-- The `starts` array of `chain_iter`: the exclusive stop appended to the
chain starts. -/
def chainCuts {α : Type} (cid : α → String) (arr : List α) : List Nat :=
  get_chain_starts cid arr ++ [arr.length]

/-- `chain_iter` of `chains.py`: slice the array between consecutive
entries of the cut array. -/
def chain_iter {α : Type} (cid : α → String) (arr : List α) : List (List α) :=
  (List.range ((chainCuts cid arr).length - 1)).map (fun i =>
    pySliceList arr ((chainCuts cid arr).getD i 0 : Int)
      ((chainCuts cid arr).getD (i + 1) 0 : Int))

/-- A Python slice with in-range natural endpoints is drop-then-take. -/
theorem pySliceList_nat {α : Type} (l : List α) (a b : Nat)
    (ha : a ≤ l.length) (hb : b ≤ l.length) :
    pySliceList l (a : Int) (b : Int) = (l.drop a).take (b - a) := by
  unfold pySliceList pyIdx
  rw [if_neg (by omega), if_neg (by omega)]
  rw [show ((a : Int)).toNat = a from by omega, show ((b : Int)).toNat = b from by omega]
  rw [Nat.min_eq_left ha, Nat.min_eq_left hb]

/-- Membership in the change-position list. -/
theorem mem_chainChanges (ids : List String) (m : Nat) :
    m ∈ chainChanges ids ↔
      ∃ j, j < ids.length - 1 ∧ ¬ ids.getD j "" = ids.getD (j + 1) "" ∧ j + 1 = m := by
  simp only [chainChanges, List.mem_map, List.mem_filter, List.mem_range,
    decide_eq_true_eq]
  constructor
  · rintro ⟨j, ⟨hj, hne⟩, rfl⟩
    exact ⟨j, hj, hne, rfl⟩
  · rintro ⟨j, hj, hne, rfl⟩
    exact ⟨j, ⟨hj, hne⟩, rfl⟩

/-- The change positions are strictly increasing. -/
theorem chainChanges_sorted (ids : List String) :
    List.Pairwise (· < ·) (chainChanges ids) := by
  unfold chainChanges
  exact List.Pairwise.map _ (fun {a b} h => by omega)
    (List.Pairwise.filter _ (List.pairwise_lt_range _))

/-- Every change position lies strictly inside the index range. -/
theorem chainChanges_bounds (ids : List String) (m : Nat) (h : m ∈ chainChanges ids) :
    1 ≤ m ∧ m ≤ ids.length - 1 := by
  rw [mem_chainChanges] at h
  obtain ⟨j, hj, -, rfl⟩ := h
  omega

/-- At a non-change position the adjacent chain IDs agree. -/
theorem const_step (ids : List String) (m : Nat) (h1 : 1 ≤ m) (h2 : m < ids.length)
    (h : m ∉ chainChanges ids) : ids.getD (m - 1) "" = ids.getD m "" := by
  by_contra hne
  apply h
  rw [mem_chainChanges]
  refine ⟨m - 1, by omega, ?_, by omega⟩
  rw [show m - 1 + 1 = m from by omega]
  exact hne

/-- Chain IDs are constant across a window containing no change position. -/
theorem const_between (ids : List String) (p : Nat) :
    ∀ d : Nat, p + d < ids.length →
      (∀ m, p < m → m ≤ p + d → m ∉ chainChanges ids) →
      ids.getD p "" = ids.getD (p + d) "" := by
  intro d
  induction d with
  | zero => intro _ _; rfl
  | succ k ih =>
    intro hq h
    have h1 : ids.getD p "" = ids.getD (p + k) "" :=
      ih (by omega) (fun m hm1 hm2 => h m hm1 (by omega))
    have h2 := const_step ids (p + k + 1) (by omega) (by omega)
      (h (p + k + 1) (by omega) (by omega))
    rw [show p + k + 1 - 1 = p + k from by omega] at h2
    rw [show p + (k + 1) = p + k + 1 from by omega]
    exact h1.trans h2

/-- The cut array is monotone. -/
theorem chainCuts_pairwise {α : Type} (cid : α → String) (arr : List α) :
    List.Pairwise (· ≤ ·) (chainCuts cid arr) := by
  show List.Pairwise (· ≤ ·) (0 :: (chainChanges (arr.map cid) ++ [arr.length]))
  rw [List.pairwise_cons]
  refine ⟨fun x _ => Nat.zero_le x, ?_⟩
  rw [List.pairwise_append]
  refine ⟨(chainChanges_sorted _).imp (fun h => Nat.le_of_lt h),
    List.pairwise_singleton _ _, ?_⟩
  intro x hx y hy
  rw [List.mem_singleton] at hy
  subst hy
  have := (chainChanges_bounds _ x hx).2
  rw [List.length_map] at this
  omega

/-- Every cut is at most the array length. -/
theorem chainCuts_le {α : Type} (cid : α → String) (arr : List α) :
    ∀ x ∈ chainCuts cid arr, x ≤ arr.length := by
  intro x hx
  rcases List.mem_append.mp hx with hx | hx
  · rcases List.mem_cons.mp hx with rfl | hx
    · exact Nat.zero_le _
    · have := (chainChanges_bounds _ x hx).2
      rw [List.length_map] at this
      omega
  · rw [List.mem_singleton] at hx
    omega

/-- `getD` is monotone along a monotone list. -/
theorem getD_mono_of_pairwise (l : List Nat) (h : List.Pairwise (· ≤ ·) l) (i j : Nat)
    (hij : i ≤ j) (hj : j < l.length) : l.getD i 0 ≤ l.getD j 0 := by
  rcases Nat.eq_or_lt_of_le hij with rfl | hlt
  · exact Nat.le_refl _
  · have hi : i < l.length := by omega
    rw [List.getD_eq_getElem l 0 hi, List.getD_eq_getElem l 0 hj]
    exact List.pairwise_iff_getElem.mp h i j hi hj hlt

/-- No change position lies strictly between two consecutive cuts. -/
theorem chainCuts_no_change {α : Type} (cid : α → String) (arr : List α) (i m : Nat)
    (h1 : (chainCuts cid arr).getD i 0 < m)
    (h2 : m < (chainCuts cid arr).getD (i + 1) 0) :
    m ∉ chainChanges (arr.map cid) := by
  intro hm
  have hmS : m ∈ chainCuts cid arr :=
    List.mem_append.mpr (Or.inl (List.mem_cons.mpr (Or.inr hm)))
  obtain ⟨j, hj, hjm⟩ := List.getElem_of_mem hmS
  have hjm' : (chainCuts cid arr).getD j 0 = m := by
    rw [List.getD_eq_getElem _ 0 hj]
    exact hjm
  rcases Nat.lt_or_ge i j with hji | hji
  · have := getD_mono_of_pairwise _ (chainCuts_pairwise cid arr) (i + 1) j hji hj
    omega
  · rcases Nat.lt_or_ge i (chainCuts cid arr).length with hii | hii
    · have := getD_mono_of_pairwise _ (chainCuts_pairwise cid arr) j i hji hii
      omega
    · have hdef : (chainCuts cid arr).getD (i + 1) 0 = 0 :=
        List.getD_eq_default _ _ (by omega)
      omega

/-- Slice a list at consecutive cut positions. -/
def slicePairs {α : Type} (arr : List α) : List Nat → List (List α)
  | [] => []
  | [_] => []
  | a :: b :: rest => pySliceList arr (a : Int) (b : Int) :: slicePairs arr (b :: rest)

/-- The indexed slice loop equals the pairwise recursion on the cuts. -/
theorem range_map_eq_slicePairs {α : Type} (arr : List α) :
    ∀ cuts : List Nat,
      (List.range (cuts.length - 1)).map (fun i =>
        pySliceList arr (cuts.getD i 0 : Int) (cuts.getD (i + 1) 0 : Int)) =
      slicePairs arr cuts
  | [] => rfl
  | [_] => rfl
  | a :: b :: rest => by
    rw [show (a :: b :: rest).length - 1 = ((b :: rest).length - 1) + 1 from by
      simp only [List.length_cons]
      omega]
    rw [List.range_succ_eq_map, List.map_cons, List.map_map]
    refine congrArg₂ List.cons rfl ?_
    rw [← range_map_eq_slicePairs arr (b :: rest)]
    apply List.map_congr_left
    intro i _
    rfl

/-- The pairwise slicing yields one chunk per consecutive cut pair. -/
theorem slicePairs_length {α : Type} (arr : List α) :
    ∀ cuts : List Nat, (slicePairs arr cuts).length = cuts.length - 1
  | [] => rfl
  | [_] => rfl
  | _ :: b :: rest => by
    simp only [slicePairs, List.length_cons, slicePairs_length arr (b :: rest)]
    omega

/-- The head of a monotone chain bounds its last element. -/
theorem le_getLastD (b : Nat) (rest : List Nat) (h : List.Chain' (· ≤ ·) (b :: rest)) :
    b ≤ rest.getLastD b := by
  induction rest generalizing b with
  | nil => exact Nat.le_refl b
  | cons c t ih =>
    rw [show (c :: t).getLastD b = t.getLastD c from by cases t <;> rfl]
    exact Nat.le_trans (List.chain'_cons.mp h).1 (ih c (List.chain'_cons.mp h).2)

/-- Concatenating adjacent drop-take windows merges them. -/
theorem take_drop_concat {α : Type} (l : List α) (a b c : Nat) (h1 : a ≤ b) (h2 : b ≤ c) :
    (l.drop a).take (b - a) ++ (l.drop b).take (c - b) = (l.drop a).take (c - a) := by
  rw [show c - a = (b - a) + (c - b) from by omega, List.take_add]
  rw [List.drop_drop, show a + (b - a) = b from by omega]

/-- Flattening the pairwise slices of a monotone in-range cut list gives
the window from the first cut to the last. -/
theorem flatten_slicePairs {α : Type} (arr : List α) :
    ∀ (a : Nat) (cuts : List Nat), List.Chain' (· ≤ ·) (a :: cuts) →
      (∀ c ∈ a :: cuts, c ≤ arr.length) →
      (slicePairs arr (a :: cuts)).flatten = (arr.drop a).take (cuts.getLastD a - a)
  | a, [], _, _ => by simp [slicePairs]
  | a, b :: rest, hchain, hle => by
    have hab : a ≤ b := (List.chain'_cons.mp hchain).1
    have hch2 : List.Chain' (· ≤ ·) (b :: rest) := (List.chain'_cons.mp hchain).2
    have hle2 : ∀ c ∈ b :: rest, c ≤ arr.length :=
      fun c hc => hle c (List.mem_cons_of_mem a hc)
    have ha : a ≤ arr.length := hle a (List.mem_cons_self a _)
    have hb : b ≤ arr.length := hle2 b (List.mem_cons_self b _)
    show (pySliceList arr (a : Int) (b : Int) :: slicePairs arr (b :: rest)).flatten = _
    rw [List.flatten_cons, flatten_slicePairs arr b rest hch2 hle2,
      pySliceList_nat arr a b ha hb,
      show (b :: rest).getLastD a = rest.getLastD b from by cases rest <;> rfl]
    exact take_drop_concat arr a b (rest.getLastD b) hab (le_getLastD b rest hch2)

/-- `chain_iter` is the pairwise slicing at the cut array. -/
theorem chain_iter_eq_slicePairs {α : Type} (cid : α → String) (arr : List α) :
    chain_iter cid arr = slicePairs arr (chainCuts cid arr) :=
  range_map_eq_slicePairs arr (chainCuts cid arr)

/-- The chunks of `chain_iter` concatenate back to the array. -/
theorem chain_iter_flatten {α : Type} (cid : α → String) (arr : List α) :
    (chain_iter cid arr).flatten = arr := by
  rw [chain_iter_eq_slicePairs]
  rw [show slicePairs arr (chainCuts cid arr) =
    slicePairs arr (0 :: (chainChanges (arr.map cid) ++ [arr.length])) from rfl]
  rw [flatten_slicePairs arr 0 (chainChanges (arr.map cid) ++ [arr.length])
    ((chainCuts_pairwise cid arr).chain') (chainCuts_le cid arr)]
  rw [List.getLastD_concat, List.drop_zero, Nat.sub_zero, List.take_length]

/-- The number of chunks equals the chain count. -/
theorem chain_iter_count {α : Type} (cid : α → String) (arr : List α) :
    (chain_iter cid arr).length = get_chain_count cid arr := by
  simp only [chain_iter, List.length_map, List.length_range, get_chain_count,
    get_chain_starts, chainCuts, List.length_append, List.length_cons, List.length_nil]
  omega

/-- Each chunk of `chain_iter` is the slice between consecutive cuts. -/
theorem chain_iter_getD {α : Type} (cid : α → String) (arr : List α) (i : Nat)
    (hi : i + 1 < (chainCuts cid arr).length) :
    (chain_iter cid arr).getD i [] =
      pySliceList arr ((chainCuts cid arr).getD i 0 : Int)
        ((chainCuts cid arr).getD (i + 1) 0 : Int) := by
  unfold chain_iter
  rw [List.getD_eq_getElem _ _ (by
    rw [List.length_map, List.length_range]
    omega)]
  rw [List.getElem_map, List.getElem_range]

/-- Within every chunk yielded by `chain_iter` the chain ID is constant. -/
theorem chain_iter_const {α : Type} (cid : α → String) (arr : List α) :
    ∀ chunk ∈ chain_iter cid arr, ∀ x ∈ chunk, ∀ y ∈ chunk, cid x = cid y := by
  intro chunk hchunk x hx y hy
  unfold chain_iter at hchunk
  obtain ⟨i, hir, hchunkeq⟩ := List.mem_map.mp hchunk
  rw [List.mem_range] at hir
  have hi1 : i + 1 < (chainCuts cid arr).length := by omega
  have hab : (chainCuts cid arr).getD i 0 ≤ (chainCuts cid arr).getD (i + 1) 0 :=
    getD_mono_of_pairwise _ (chainCuts_pairwise cid arr) i (i + 1) (by omega) hi1
  have hbmem : (chainCuts cid arr).getD (i + 1) 0 ∈ chainCuts cid arr := by
    rw [List.getD_eq_getElem _ 0 hi1]
    exact List.getElem_mem hi1
  have hbn : (chainCuts cid arr).getD (i + 1) 0 ≤ arr.length :=
    chainCuts_le cid arr _ hbmem
  have hslice : chunk = (arr.drop ((chainCuts cid arr).getD i 0)).take
      ((chainCuts cid arr).getD (i + 1) 0 - (chainCuts cid arr).getD i 0) := by
    rw [← hchunkeq, pySliceList_nat arr _ _ (by omega) hbn]
  have key : ∀ z ∈ chunk, cid z = (arr.map cid).getD ((chainCuts cid arr).getD i 0) "" := by
    intro z hz
    rw [hslice] at hz
    obtain ⟨t, ht, hzt⟩ := List.getElem_of_mem hz
    have ht' : t < (chainCuts cid arr).getD (i + 1) 0 - (chainCuts cid arr).getD i 0 := by
      have := ht
      rw [List.length_take, List.length_drop] at this
      omega
    rw [List.getElem_take, List.getElem_drop] at hzt
    have hidx : (chainCuts cid arr).getD i 0 + t < arr.length := by omega
    have hz2 : (arr.map cid).getD ((chainCuts cid arr).getD i 0 + t) "" = cid z := by
      rw [List.getD_eq_getElem (arr.map cid) "" (by rw [List.length_map]; omega),
        List.getElem_map]
      exact congrArg cid hzt
    rw [← hz2]
    exact (const_between (arr.map cid) ((chainCuts cid arr).getD i 0) t
      (by rw [List.length_map]; omega)
      (fun m hm1 hm2 => chainCuts_no_change cid arr i m hm1 (by omega))).symm
  rw [key x hx, key y hy]

/-- C9: the chunks yielded by `chain_iter` are the consecutive slices of
the array between the monotone cut positions (chain starts plus the
exclusive stop), their concatenation is exactly the array (so the chunk
lengths sum to the array length), the number of chunks equals
`get_chain_count`, and within each chunk the chain-ID annotation is
constant. -/
theorem c9_chain_iter_partition :
    (∀ (α : Type) (cid : α → String) (arr : List α),
      (chain_iter cid arr).flatten = arr) ∧
    (∀ (α : Type) (cid : α → String) (arr : List α),
      ((chain_iter cid arr).map List.length).sum = arr.length) ∧
    (∀ (α : Type) (cid : α → String) (arr : List α),
      (chain_iter cid arr).length = get_chain_count cid arr) ∧
    (∀ (α : Type) (cid : α → String) (arr : List α),
      List.Pairwise (· ≤ ·) (chainCuts cid arr) ∧
      ∀ i, i + 1 < (chainCuts cid arr).length →
        (chain_iter cid arr).getD i [] =
          pySliceList arr ((chainCuts cid arr).getD i 0 : Int)
            ((chainCuts cid arr).getD (i + 1) 0 : Int)) ∧
    (∀ (α : Type) (cid : α → String) (arr : List α),
      ∀ chunk ∈ chain_iter cid arr, ∀ x ∈ chunk, ∀ y ∈ chunk, cid x = cid y) := by
  refine ⟨fun α cid arr => chain_iter_flatten cid arr, fun α cid arr => ?_,
    fun α cid arr => chain_iter_count cid arr,
    fun α cid arr => ⟨chainCuts_pairwise cid arr, fun i hi => chain_iter_getD cid arr i hi⟩,
    fun α cid arr => chain_iter_const cid arr⟩
  rw [← List.length_flatten, chain_iter_flatten]

/-- Witness for C9 on a three-atom array with chains `A`, `A`, `B`. -/
theorem c9_witness :
    (chain_iter (fun s : String => s) ["A", "A", "B"]).flatten = ["A", "A", "B"] ∧
    ((chain_iter (fun s : String => s) ["A", "A", "B"]).map List.length).sum = 3 ∧
    (chain_iter (fun s : String => s) ["A", "A", "B"]).length =
      get_chain_count (fun s : String => s) ["A", "A", "B"] ∧
    (0 : Nat) + 1 < (chainCuts (fun s : String => s) ["A", "A", "B"]).length ∧
    (chain_iter (fun s : String => s) ["A", "A", "B"]).getD 0 [] =
      pySliceList ["A", "A", "B"]
        ((chainCuts (fun s : String => s) ["A", "A", "B"]).getD 0 0 : Int)
        ((chainCuts (fun s : String => s) ["A", "A", "B"]).getD 1 0 : Int) ∧
    ["A", "A"] ∈ chain_iter (fun s : String => s) ["A", "A", "B"] ∧
    "A" ∈ (["A", "A"] : List String) ∧
    (fun s : String => s) "A" = (fun s : String => s) "A" :=
  ⟨c9_chain_iter_partition.1 String _ _, c9_chain_iter_partition.2.1 String _ _,
    c9_chain_iter_partition.2.2.1 String _ _, by decide,
    (c9_chain_iter_partition.2.2.2.1 String (fun s => s) ["A", "A", "B"]).2 0 (by decide),
    by decide, by decide,
    c9_chain_iter_partition.2.2.2.2 String (fun s => s) ["A", "A", "B"]
      ["A", "A"] (by decide) "A" (by decide) "A" (by decide)⟩

/-- C10: `get_chain_starts` always begins with index 0 — on the empty
array it returns `[0]` — so `get_chain_count` is at least 1 on every
input, and an empty atom array is reported as having one chain. -/
theorem c10_empty_one_chain :
    (∀ (α : Type) (cid : α → String) (arr : List α),
      (get_chain_starts cid arr).head? = some 0) ∧
    (∀ (α : Type) (cid : α → String) (arr : List α), 1 ≤ get_chain_count cid arr) ∧
    (∀ (α : Type) (cid : α → String),
      get_chain_starts cid ([] : List α) = [0] ∧
      get_chain_count cid ([] : List α) = 1) := by
  refine ⟨fun α cid arr => rfl, fun α cid arr => ?_, fun α cid => ⟨rfl, rfl⟩⟩
  show 1 ≤ (0 :: chainChanges (arr.map cid)).length
  rw [List.length_cons]
  omega

/-! ### The alignment engine of the spec's section 4.1

The `align_optimal` engine the example script calls is not part of the
sources, so this development is modelled from the spec: integer-coded
symbol sequences, a substitution matrix over their alphabets, linear or
affine gap penalties (a gap of length L costs `open + extend * (L - 1)`,
the linear case taking `open = extend`), the three modes global / local /
semi-global, a three-track (m+1) x (n+1) dynamic program as mandated for
affine gaps, and a result set holding every optimal alignment.  Traces are
stored as the backward walk the spec's traceback describes: the most
recent step first. -/

/-- Modelled from the spec: one traceback step — a diagonal match/mismatch
move, a vertical move (gap in the second sequence), or a horizontal move
(gap in the first sequence). -/
inductive Step : Type
  | diag
  | up
  | left
deriving DecidableEq

/-- Maximum of two optional scores, `none` standing for an infeasible
state. -/
def maxO : Option Int → Option Int → Option Int
  | none, b => b
  | some x, none => some x
  | some x, some y => some (max x y)

/-- Add a fixed cost to an optional score. -/
def oadd (c : Int) (a : Option Int) : Option Int := a.map (fun x => c + x)

/-- Maximum of a list of scores, `none` on the empty list. -/
def listMax : List Int → Option Int
  | [] => none
  | x :: l => maxO (some x) (listMax l)

/-- `maxO` with a `none` right argument. -/
theorem maxO_none_right (a : Option Int) : maxO a none = a := by
  cases a <;> rfl

/-- `maxO` is commutative. -/
theorem maxO_comm (a b : Option Int) : maxO a b = maxO b a := by
  cases a <;> cases b <;> simp [maxO, max_comm]

/-- `maxO` is associative. -/
theorem maxO_assoc (a b c : Option Int) : maxO (maxO a b) c = maxO a (maxO b c) := by
  cases a <;> cases b <;> cases c <;> simp [maxO, max_assoc]

/-- Adding a constant distributes over `maxO`. -/
theorem oadd_maxO (c : Int) (a b : Option Int) :
    oadd c (maxO a b) = maxO (oadd c a) (oadd c b) := by
  cases a <;> cases b <;> simp [maxO, oadd]
  omega

/-- `listMax` of a concatenation. -/
theorem listMax_append (l1 l2 : List Int) :
    listMax (l1 ++ l2) = maxO (listMax l1) (listMax l2) := by
  induction l1 with
  | nil => rfl
  | cons x l ih =>
    rw [List.cons_append]
    show maxO (some x) (listMax (l ++ l2)) = maxO (maxO (some x) (listMax l)) (listMax l2)
    rw [ih, maxO_assoc]

/-- `listMax` of a constant-shifted list. -/
theorem listMax_map_oadd (c : Int) (l : List Int) :
    listMax (l.map (fun x => c + x)) = oadd c (listMax l) := by
  induction l with
  | nil => rfl
  | cons x l ih =>
    show maxO (some (c + x)) (listMax (l.map (fun x => c + x))) = _
    rw [ih]
    show _ = oadd c (maxO (some x) (listMax l))
    rw [oadd_maxO]
    rfl

/-- Only the empty list has no maximum. -/
theorem listMax_none (l : List Int) (h : listMax l = none) : l = [] := by
  cases l with
  | nil => rfl
  | cons x l =>
    unfold listMax at h
    cases hr : listMax l <;> rw [hr] at h <;> exact absurd h (by simp [maxO])

/-- The maximum of a list is one of its elements. -/
theorem listMax_mem (l : List Int) (v : Int) (h : listMax l = some v) : v ∈ l := by
  induction l generalizing v with
  | nil => exact absurd h (by simp [listMax])
  | cons x l ih =>
    show v ∈ x :: l
    unfold listMax at h
    cases hl : listMax l with
    | none =>
      rw [hl, maxO_none_right, Option.some.injEq] at h
      subst h
      exact List.mem_cons_self x l
    | some w =>
      rw [hl] at h
      have h2 : max x w = v := by
        have := h
        simp only [maxO, Option.some.injEq] at this
        exact this
      rcases max_choice x w with hm | hm
      · rw [hm] at h2
        subst h2
        exact List.mem_cons_self x l
      · rw [hm] at h2
        subst h2
        exact List.mem_cons_of_mem x (ih w hl)

/-- Every element is at most the list maximum. -/
theorem listMax_ge (l : List Int) (x : Int) (hx : x ∈ l) (v : Int)
    (h : listMax l = some v) : x ≤ v := by
  induction l generalizing v with
  | nil => exact absurd hx (List.not_mem_nil x)
  | cons y l ih =>
    unfold listMax at h
    rcases List.mem_cons.mp hx with rfl | hx2
    · cases hl : listMax l with
      | none =>
        rw [hl, maxO_none_right, Option.some.injEq] at h
        omega
      | some w =>
        rw [hl] at h
        simp only [maxO, Option.some.injEq] at h
        subst h
        exact le_max_left x w
    · cases hl : listMax l with
      | none =>
        have h0 : l = [] := listMax_none l hl
        subst h0
        exact absurd hx2 (List.not_mem_nil x)
      | some w =>
        rw [hl] at h
        simp only [maxO, Option.some.injEq] at h
        subst h
        exact le_trans (ih hx2 w hl) (le_max_right y w)

/-- A nonempty list has a maximum. -/
theorem listMax_isSome (l : List Int) (h : l ≠ []) : ∃ v, listMax l = some v := by
  cases l with
  | nil => exact absurd rfl h
  | cons x l =>
    unfold listMax
    cases listMax l with
    | none => exact ⟨x, rfl⟩
    | some w => exact ⟨max x w, rfl⟩

/-- Modelled from the spec: the per-call inputs of the dynamic program —
the substitution-matrix lookup, the two integer-coded sequences, the
affine gap-open and gap-extend costs, and the mode's predicate saying at
which cells an alignment may start. -/
structure DPIn : Type where
  Mx : Nat → Nat → Int
  s1 : List Nat
  s2 : List Nat
  o : Int
  e : Int
  startOK : Nat → Nat → Bool

/-- Substitution score consumed by the diagonal move out of cell (i, j). -/
def cellCost (P : DPIn) (i j : Nat) : Int :=
  P.Mx (P.s1.getD i 0) (P.s2.getD j 0)

/-- Score of the empty alignment starting (and ending) at cell (i, j):
feasible exactly at the mode's allowed start cells. -/
def sOf (P : DPIn) (i j : Nat) : Option Int :=
  if P.startOK i j then some 0 else none

/-- The vertical-gap track entering cell (i+1, j) from the three tracks
and the start state at cell (i, j): opening costs `o`, extending `e`. -/
def upInto (P : DPIn) (i j : Nat) (t : Option Int × Option Int × Option Int) :
    Option Int :=
  maxO (oadd P.o (maxO (sOf P i j) (maxO t.1 t.2.2))) (oadd P.e t.2.1)

/-- The horizontal-gap track entering cell (i, j+1) from cell (i, j). -/
def leftInto (P : DPIn) (i j : Nat) (t : Option Int × Option Int × Option Int) :
    Option Int :=
  maxO (oadd P.o (maxO (sOf P i j) (maxO t.1 t.2.1))) (oadd P.e t.2.2)

/-- The match/mismatch track entering cell (i+1, j+1) from cell (i, j). -/
def diagInto (P : DPIn) (i j : Nat) (t : Option Int × Option Int × Option Int) :
    Option Int :=
  oadd (cellCost P i j) (maxO (sOf P i j) (maxO t.1 (maxO t.2.1 t.2.2)))

/-- Row 0 of the three-track matrix: only the horizontal track is
feasible. -/
def dpRow0 (P : DPIn) : Nat → Option Int × Option Int × Option Int
  | 0 => (none, none, none)
  | j + 1 => (none, none, leftInto P 0 j (dpRow0 P j))

/-- Row i+1 of the three-track matrix from row i. -/
def dpNext (P : DPIn) (i : Nat) (prev : Nat → Option Int × Option Int × Option Int) :
    Nat → Option Int × Option Int × Option Int
  | 0 => (none, upInto P i 0 (prev 0), none)
  | j + 1 => (diagInto P i j (prev j), upInto P i (j + 1) (prev (j + 1)),
      leftInto P (i + 1) j (dpNext P i prev j))

/-- The three-track dynamic-programming matrix, built row by row. -/
def dpRowFn (P : DPIn) : Nat → Nat → Option Int × Option Int × Option Int
  | 0 => dpRow0 P
  | i + 1 => dpNext P i (dpRowFn P i)

/-- The three track values at cell (i, j): best score of an alignment
ending at (i, j) whose last step is a diagonal, vertical or horizontal
move respectively. -/
def dpCell (P : DPIn) (i j : Nat) : Option Int × Option Int × Option Int :=
  dpRowFn P i j

/-- Best score over the four states (empty start included) at cell
(i, j). -/
def dpVal (P : DPIn) (i j : Nat) : Option Int :=
  maxO (sOf P i j) (maxO (dpCell P i j).1 (maxO (dpCell P i j).2.1 (dpCell P i j).2.2))

/-- Unfolding `dpCell` at the origin. -/
theorem dpCell_zero_zero (P : DPIn) : dpCell P 0 0 = (none, none, none) := rfl

/-- Unfolding `dpCell` along row 0. -/
theorem dpCell_zero_succ (P : DPIn) (j : Nat) :
    dpCell P 0 (j + 1) = (none, none, leftInto P 0 j (dpCell P 0 j)) := rfl

/-- Unfolding `dpCell` along column 0. -/
theorem dpCell_succ_zero (P : DPIn) (i : Nat) :
    dpCell P (i + 1) 0 = (none, upInto P i 0 (dpCell P i 0), none) := rfl

/-- Unfolding `dpCell` at an interior cell. -/
theorem dpCell_succ_succ (P : DPIn) (i j : Nat) :
    dpCell P (i + 1) (j + 1) = (diagInto P i j (dpCell P i j),
      upInto P i (j + 1) (dpCell P i (j + 1)), leftInto P (i + 1) j (dpCell P (i + 1) j)) :=
  rfl

/-- Modelled from the spec: score of a backward trace ending at cell
(i, j).  A diagonal step consumes the substitution score of the symbols it
aligns; a gap step costs `extend` when it prolongs a gap run (the previous
step in time — the next list entry — is the same gap move) and `open`
when it begins one. -/
def rscore (P : DPIn) : Nat → Nat → List Step → Int
  | i, j, Step.diag :: rest =>
    cellCost P (i - 1) (j - 1) + rscore P (i - 1) (j - 1) rest
  | i, j, Step.up :: rest =>
    (if rest.head? = some Step.up then P.e else P.o) + rscore P (i - 1) j rest
  | i, j, Step.left :: rest =>
    (if rest.head? = some Step.left then P.e else P.o) + rscore P i (j - 1) rest
  | _, _, [] => 0

/-- Number of first-sequence symbols a trace consumes. -/
def c1 : List Step → Nat
  | [] => 0
  | Step.diag :: r => c1 r + 1
  | Step.up :: r => c1 r + 1
  | Step.left :: r => c1 r

/-- Number of second-sequence symbols a trace consumes. -/
def c2 : List Step → Nat
  | [] => 0
  | Step.diag :: r => c2 r + 1
  | Step.up :: r => c2 r
  | Step.left :: r => c2 r + 1

/-- The empty trace at cell (i, j), present when the cell is an allowed
start. -/
def candsS (sOK : Nat → Nat → Bool) (i j : Nat) : List (List Step) :=
  if sOK i j then [[]] else []

/-- All backward traces ending at cell (i, j) that begin at an allowed
start cell, split by their final step (diagonal, vertical, horizontal). -/
def cands4 (sOK : Nat → Nat → Bool) :
    Nat → Nat → List (List Step) × List (List Step) × List (List Step)
  | 0, 0 => ([], [], [])
  | i + 1, 0 =>
    ([], (candsS sOK i 0 ++ (cands4 sOK i 0).1 ++ (cands4 sOK i 0).2.1 ++
      (cands4 sOK i 0).2.2).map (fun rp => Step.up :: rp), [])
  | 0, j + 1 =>
    ([], [], (candsS sOK 0 j ++ (cands4 sOK 0 j).1 ++ (cands4 sOK 0 j).2.1 ++
      (cands4 sOK 0 j).2.2).map (fun rp => Step.left :: rp))
  | i + 1, j + 1 =>
    ((candsS sOK i j ++ (cands4 sOK i j).1 ++ (cands4 sOK i j).2.1 ++
        (cands4 sOK i j).2.2).map (fun rp => Step.diag :: rp),
      (candsS sOK i (j + 1) ++ (cands4 sOK i (j + 1)).1 ++ (cands4 sOK i (j + 1)).2.1 ++
        (cands4 sOK i (j + 1)).2.2).map (fun rp => Step.up :: rp),
      (candsS sOK (i + 1) j ++ (cands4 sOK (i + 1) j).1 ++ (cands4 sOK (i + 1) j).2.1 ++
        (cands4 sOK (i + 1) j).2.2).map (fun rp => Step.left :: rp))
  termination_by i j => i + j

/-- All backward traces ending at cell (i, j) that begin at an allowed
start cell. -/
def candsAll (sOK : Nat → Nat → Bool) (i j : Nat) : List (List Step) :=
  candsS sOK i j ++ (cands4 sOK i j).1 ++ (cands4 sOK i j).2.1 ++ (cands4 sOK i j).2.2

/-- Unfolding `cands4` at the origin. -/
theorem cands4_zero_zero (sOK : Nat → Nat → Bool) : cands4 sOK 0 0 = ([], [], []) := by
  rw [cands4]

/-- Unfolding `cands4` along column 0. -/
theorem cands4_succ_zero (sOK : Nat → Nat → Bool) (i : Nat) :
    cands4 sOK (i + 1) 0 =
      ([], (candsAll sOK i 0).map (fun rp => Step.up :: rp), []) := by
  rw [cands4, candsAll, List.append_assoc, List.append_assoc]

/-- Unfolding `cands4` along row 0. -/
theorem cands4_zero_succ (sOK : Nat → Nat → Bool) (j : Nat) :
    cands4 sOK 0 (j + 1) =
      ([], [], (candsAll sOK 0 j).map (fun rp => Step.left :: rp)) := by
  rw [cands4, candsAll, List.append_assoc, List.append_assoc]

/-- Unfolding `cands4` at an interior cell. -/
theorem cands4_succ_succ (sOK : Nat → Nat → Bool) (i j : Nat) :
    cands4 sOK (i + 1) (j + 1) =
      ((candsAll sOK i j).map (fun rp => Step.diag :: rp),
        (candsAll sOK i (j + 1)).map (fun rp => Step.up :: rp),
        (candsAll sOK (i + 1) j).map (fun rp => Step.left :: rp)) := by
  rw [cands4, candsAll, candsAll, candsAll]

/-- Scores of the empty-trace state at cell (i, j). -/
def scS (P : DPIn) (i j : Nat) : List Int :=
  (candsS P.startOK i j).map (rscore P i j)

/-- Scores of the traces ending at (i, j) with a diagonal step. -/
def scD (P : DPIn) (i j : Nat) : List Int :=
  ((cands4 P.startOK i j).1).map (rscore P i j)

/-- Scores of the traces ending at (i, j) with a vertical step. -/
def scU (P : DPIn) (i j : Nat) : List Int :=
  ((cands4 P.startOK i j).2.1).map (rscore P i j)

/-- Scores of the traces ending at (i, j) with a horizontal step. -/
def scL (P : DPIn) (i j : Nat) : List Int :=
  ((cands4 P.startOK i j).2.2).map (rscore P i j)

/-- Scores of all traces ending at (i, j). -/
def scA (P : DPIn) (i j : Nat) : List Int :=
  (candsAll P.startOK i j).map (rscore P i j)

/-- A trace of the diagonal class ends with a diagonal step. -/
theorem headD (sOK : Nat → Nat → Bool) (i j : Nat) (rp : List Step)
    (h : rp ∈ (cands4 sOK i j).1) : rp.head? = some Step.diag := by
  rcases i with _ | i
  · rcases j with _ | j
    · rw [cands4_zero_zero] at h
      exact absurd h (List.not_mem_nil _)
    · rw [cands4_zero_succ] at h
      exact absurd h (List.not_mem_nil _)
  · rcases j with _ | j
    · rw [cands4_succ_zero] at h
      exact absurd h (List.not_mem_nil _)
    · rw [cands4_succ_succ] at h
      obtain ⟨rest, -, rfl⟩ := List.mem_map.mp h
      rfl

/-- A trace of the vertical class ends with a vertical step. -/
theorem headU (sOK : Nat → Nat → Bool) (i j : Nat) (rp : List Step)
    (h : rp ∈ (cands4 sOK i j).2.1) : rp.head? = some Step.up := by
  rcases i with _ | i
  · rcases j with _ | j
    · rw [cands4_zero_zero] at h
      exact absurd h (List.not_mem_nil _)
    · rw [cands4_zero_succ] at h
      exact absurd h (List.not_mem_nil _)
  · rcases j with _ | j
    · rw [cands4_succ_zero] at h
      obtain ⟨rest, -, rfl⟩ := List.mem_map.mp h
      rfl
    · rw [cands4_succ_succ] at h
      obtain ⟨rest, -, rfl⟩ := List.mem_map.mp h
      rfl

/-- A trace of the horizontal class ends with a horizontal step. -/
theorem headL (sOK : Nat → Nat → Bool) (i j : Nat) (rp : List Step)
    (h : rp ∈ (cands4 sOK i j).2.2) : rp.head? = some Step.left := by
  rcases i with _ | i
  · rcases j with _ | j
    · rw [cands4_zero_zero] at h
      exact absurd h (List.not_mem_nil _)
    · rw [cands4_zero_succ] at h
      obtain ⟨rest, -, rfl⟩ := List.mem_map.mp h
      rfl
  · rcases j with _ | j
    · rw [cands4_succ_zero] at h
      exact absurd h (List.not_mem_nil _)
    · rw [cands4_succ_succ] at h
      obtain ⟨rest, -, rfl⟩ := List.mem_map.mp h
      rfl

/-- Shifting every score by a fixed cost shifts the maximum. -/
theorem listMax_map_cost (f : List Step → Int) (c : Int) (l : List (List Step)) :
    listMax (l.map (fun rp => c + f rp)) = oadd c (listMax (l.map f)) := by
  rw [show (fun rp => c + f rp) = ((fun x => c + x) ∘ f) from rfl, ← List.map_map,
    listMax_map_oadd]

/-- The empty-trace state scores exactly `sOf`. -/
theorem listMax_scS (P : DPIn) (i j : Nat) : listMax (scS P i j) = sOf P i j := by
  unfold scS candsS sOf
  split
  · rfl
  · rfl

/-- The four-way split of the candidate list. -/
theorem candsAll_split (sOK : Nat → Nat → Bool) (i j : Nat) :
    candsAll sOK i j = candsS sOK i j ++ ((cands4 sOK i j).1 ++
      ((cands4 sOK i j).2.1 ++ (cands4 sOK i j).2.2)) := by
  rw [candsAll, List.append_assoc, List.append_assoc]

/-- The best candidate score at a cell is the best of the four states. -/
theorem listMax_scA (P : DPIn) (i j : Nat) :
    listMax (scA P i j) = maxO (sOf P i j)
      (maxO (listMax (scD P i j)) (maxO (listMax (scU P i j)) (listMax (scL P i j)))) := by
  unfold scA
  rw [candsAll_split, List.map_append, List.map_append, List.map_append,
    listMax_append, listMax_append, listMax_append]
  rw [show listMax ((candsS P.startOK i j).map (rscore P i j)) = sOf P i j from
    listMax_scS P i j]
  rw [scD, scU, scL]

/-- The diagonal class at an interior cell: every candidate at (i, j)
extended by a diagonal move. -/
theorem scD_succ_succ (P : DPIn) (i j : Nat) :
    scD P (i + 1) (j + 1) = (scA P i j).map (fun x => cellCost P i j + x) := by
  unfold scD scA
  rw [cands4_succ_succ]
  rw [List.map_map, List.map_map]
  apply List.map_congr_left
  intro rp _
  rfl

/-- No diagonal-class traces end on row 0. -/
theorem scD_row0 (P : DPIn) (j : Nat) : scD P 0 j = [] := by
  unfold scD
  cases j with
  | zero =>
    rw [cands4_zero_zero]
    rfl
  | succ j =>
    rw [cands4_zero_succ]
    rfl

/-- No diagonal-class traces end on column 0. -/
theorem scD_col0 (P : DPIn) (i : Nat) : scD P i 0 = [] := by
  unfold scD
  cases i with
  | zero =>
    rw [cands4_zero_zero]
    rfl
  | succ i =>
    rw [cands4_succ_zero]
    rfl

/-- No vertical-class traces end on row 0. -/
theorem scU_row0 (P : DPIn) (j : Nat) : scU P 0 j = [] := by
  unfold scU
  cases j with
  | zero =>
    rw [cands4_zero_zero]
    rfl
  | succ j =>
    rw [cands4_zero_succ]
    rfl

/-- No horizontal-class traces end on column 0. -/
theorem scL_col0 (P : DPIn) (i : Nat) : scL P i 0 = [] := by
  unfold scL
  cases i with
  | zero =>
    rw [cands4_zero_zero]
    rfl
  | succ i =>
    rw [cands4_succ_zero]
    rfl

/-- The vertical class at row i+1 satisfies the affine gap recurrence:
extending the vertical track costs `e`, entering from any other state
costs `o`. -/
theorem listMax_scU_succ (P : DPIn) (i j : Nat) :
    listMax (scU P (i + 1) j) =
      maxO (oadd P.o (maxO (sOf P i j) (maxO (listMax (scD P i j)) (listMax (scL P i j)))))
        (oadd P.e (listMax (scU P i j))) := by
  have hU : (cands4 P.startOK (i + 1) j).2.1 =
      (candsAll P.startOK i j).map (fun rp => Step.up :: rp) := by
    cases j with
    | zero => rw [cands4_succ_zero]
    | succ j => rw [cands4_succ_succ]
  unfold scU
  rw [hU, List.map_map]
  have hpt : (candsAll P.startOK i j).map ((rscore P (i + 1) j) ∘ (fun rp => Step.up :: rp)) =
      (candsAll P.startOK i j).map
        (fun rp => (if rp.head? = some Step.up then P.e else P.o) + rscore P i j rp) := by
    apply List.map_congr_left
    intro rp _
    rfl
  rw [hpt, candsAll_split, List.map_append, List.map_append, List.map_append,
    listMax_append, listMax_append, listMax_append]
  have hS : listMax ((candsS P.startOK i j).map
      (fun rp => (if rp.head? = some Step.up then P.e else P.o) + rscore P i j rp)) =
      oadd P.o (sOf P i j) := by
    unfold candsS sOf
    split
    · rfl
    · rfl
  have hD : listMax (((cands4 P.startOK i j).1).map
      (fun rp => (if rp.head? = some Step.up then P.e else P.o) + rscore P i j rp)) =
      oadd P.o (listMax (scD P i j)) := by
    have step : ∀ rp ∈ (cands4 P.startOK i j).1,
        (if rp.head? = some Step.up then P.e else P.o) + rscore P i j rp =
          P.o + rscore P i j rp := by
      intro rp hrp
      rw [headD P.startOK i j rp hrp, if_neg (by decide)]
    rw [List.map_congr_left step]
    exact listMax_map_cost (rscore P i j) P.o _
  have hU2 : listMax (((cands4 P.startOK i j).2.1).map
      (fun rp => (if rp.head? = some Step.up then P.e else P.o) + rscore P i j rp)) =
      oadd P.e (listMax (scU P i j)) := by
    have step : ∀ rp ∈ (cands4 P.startOK i j).2.1,
        (if rp.head? = some Step.up then P.e else P.o) + rscore P i j rp =
          P.e + rscore P i j rp := by
      intro rp hrp
      rw [headU P.startOK i j rp hrp, if_pos rfl]
    rw [List.map_congr_left step]
    exact listMax_map_cost (rscore P i j) P.e _
  have hL2 : listMax (((cands4 P.startOK i j).2.2).map
      (fun rp => (if rp.head? = some Step.up then P.e else P.o) + rscore P i j rp)) =
      oadd P.o (listMax (scL P i j)) := by
    have step : ∀ rp ∈ (cands4 P.startOK i j).2.2,
        (if rp.head? = some Step.up then P.e else P.o) + rscore P i j rp =
          P.o + rscore P i j rp := by
      intro rp hrp
      rw [headL P.startOK i j rp hrp, if_neg (by decide)]
    rw [List.map_congr_left step]
    exact listMax_map_cost (rscore P i j) P.o _
  rw [hS, hD, hU2, hL2]
  rw [oadd_maxO P.o (sOf P i j) (maxO (listMax (scD P i j)) (listMax (scL P i j)))]
  rw [oadd_maxO P.o (listMax (scD P i j)) (listMax (scL P i j))]
  rw [maxO_assoc, maxO_assoc]
  rw [maxO_comm (oadd P.e (listMax (scU P i j))) (oadd P.o (listMax (scL P i j)))]
  rw [scU]

/-- The horizontal class at column j+1 satisfies the affine gap
recurrence. -/
theorem listMax_scL_succ (P : DPIn) (i j : Nat) :
    listMax (scL P i (j + 1)) =
      maxO (oadd P.o (maxO (sOf P i j) (maxO (listMax (scD P i j)) (listMax (scU P i j)))))
        (oadd P.e (listMax (scL P i j))) := by
  have hL : (cands4 P.startOK i (j + 1)).2.2 =
      (candsAll P.startOK i j).map (fun rp => Step.left :: rp) := by
    cases i with
    | zero => rw [cands4_zero_succ]
    | succ i => rw [cands4_succ_succ]
  unfold scL
  rw [hL, List.map_map]
  have hpt : (candsAll P.startOK i j).map ((rscore P i (j + 1)) ∘ (fun rp => Step.left :: rp)) =
      (candsAll P.startOK i j).map
        (fun rp => (if rp.head? = some Step.left then P.e else P.o) + rscore P i j rp) := by
    apply List.map_congr_left
    intro rp _
    rfl
  rw [hpt, candsAll_split, List.map_append, List.map_append, List.map_append,
    listMax_append, listMax_append, listMax_append]
  have hS : listMax ((candsS P.startOK i j).map
      (fun rp => (if rp.head? = some Step.left then P.e else P.o) + rscore P i j rp)) =
      oadd P.o (sOf P i j) := by
    unfold candsS sOf
    split
    · rfl
    · rfl
  have hD : listMax (((cands4 P.startOK i j).1).map
      (fun rp => (if rp.head? = some Step.left then P.e else P.o) + rscore P i j rp)) =
      oadd P.o (listMax (scD P i j)) := by
    have step : ∀ rp ∈ (cands4 P.startOK i j).1,
        (if rp.head? = some Step.left then P.e else P.o) + rscore P i j rp =
          P.o + rscore P i j rp := by
      intro rp hrp
      rw [headD P.startOK i j rp hrp, if_neg (by decide)]
    rw [List.map_congr_left step]
    exact listMax_map_cost (rscore P i j) P.o _
  have hU2 : listMax (((cands4 P.startOK i j).2.1).map
      (fun rp => (if rp.head? = some Step.left then P.e else P.o) + rscore P i j rp)) =
      oadd P.o (listMax (scU P i j)) := by
    have step : ∀ rp ∈ (cands4 P.startOK i j).2.1,
        (if rp.head? = some Step.left then P.e else P.o) + rscore P i j rp =
          P.o + rscore P i j rp := by
      intro rp hrp
      rw [headU P.startOK i j rp hrp, if_neg (by decide)]
    rw [List.map_congr_left step]
    exact listMax_map_cost (rscore P i j) P.o _
  have hL2 : listMax (((cands4 P.startOK i j).2.2).map
      (fun rp => (if rp.head? = some Step.left then P.e else P.o) + rscore P i j rp)) =
      oadd P.e (listMax (scL P i j)) := by
    have step : ∀ rp ∈ (cands4 P.startOK i j).2.2,
        (if rp.head? = some Step.left then P.e else P.o) + rscore P i j rp =
          P.e + rscore P i j rp := by
      intro rp hrp
      rw [headL P.startOK i j rp hrp, if_pos rfl]
    rw [List.map_congr_left step]
    exact listMax_map_cost (rscore P i j) P.e _
  rw [hS, hD, hU2, hL2]
  rw [oadd_maxO P.o (sOf P i j) (maxO (listMax (scD P i j)) (listMax (scU P i j)))]
  rw [oadd_maxO P.o (listMax (scD P i j)) (listMax (scU P i j))]
  rw [maxO_assoc, maxO_assoc]
  rw [scL]

/-- The three DP tracks compute exactly the best candidate score of each
trace class, at every cell (strong induction on the antidiagonal). -/
theorem dp_eq_aux (P : DPIn) : ∀ N i j, i + j ≤ N →
    dpCell P i j = (listMax (scD P i j), listMax (scU P i j), listMax (scL P i j)) := by
  intro N
  induction N with
  | zero =>
    intro i j h
    obtain rfl : i = 0 := by omega
    obtain rfl : j = 0 := by omega
    rw [dpCell_zero_zero, scD_row0, scU_row0, scL_col0]
    rfl
  | succ N ih =>
    intro i j h
    rcases i with _ | i
    · rcases j with _ | j
      · rw [dpCell_zero_zero, scD_row0, scU_row0, scL_col0]
        rfl
      · rw [dpCell_zero_succ, ih 0 j (by omega), scD_row0 P (j + 1), scU_row0 P (j + 1),
          listMax_scL_succ P 0 j]
        rfl
    · rcases j with _ | j
      · rw [dpCell_succ_zero, ih i 0 (by omega), scD_col0 P (i + 1), scL_col0 P (i + 1),
          listMax_scU_succ P i 0]
        rfl
      · rw [dpCell_succ_succ, ih i j (by omega), ih i (j + 1) (by omega),
          ih (i + 1) j (by omega)]
        have h1 : listMax (scD P (i + 1) (j + 1)) =
            oadd (cellCost P i j) (listMax (scA P i j)) := by
          rw [scD_succ_succ]
          exact listMax_map_oadd _ _
        rw [h1, listMax_scA P i j, listMax_scU_succ P i (j + 1), listMax_scL_succ P (i + 1) j]
        rfl

/-- The best of the four states at a cell is the best candidate score
there. -/
theorem dpVal_eq (P : DPIn) (i j : Nat) : dpVal P i j = listMax (scA P i j) := by
  unfold dpVal
  rw [dp_eq_aux P (i + j) i j (Nat.le_refl _), listMax_scA]

/-- Membership in the empty-trace class. -/
theorem mem_candsS (sOK : Nat → Nat → Bool) (i j : Nat) (rp : List Step) :
    rp ∈ candsS sOK i j ↔ rp = [] ∧ sOK i j = true := by
  unfold candsS
  by_cases h : sOK i j = true
  · rw [if_pos h]
    simp [h]
  · rw [if_neg h]
    simp [h]

/-- A trace consuming nothing is empty. -/
theorem nil_of_c_zero (rp : List Step) (h1 : c1 rp = 0) (h2 : c2 rp = 0) : rp = [] := by
  cases rp with
  | nil => rfl
  | cons s r => cases s <;> simp [c1, c2] at h1 h2

/-- The empty trace ends at (i, j) exactly when (i, j) is an allowed
start. -/
theorem mem_nil_candsAll (sOK : Nat → Nat → Bool) (i j : Nat) :
    ([] : List Step) ∈ candsAll sOK i j ↔ sOK i j = true := by
  rw [candsAll]
  rcases i with _ | i <;> rcases j with _ | j
  · rw [cands4_zero_zero]
    simp [mem_candsS]
  · rw [cands4_zero_succ]
    simp [mem_candsS]
  · rw [cands4_succ_zero]
    simp [mem_candsS]
  · rw [cands4_succ_succ]
    simp [mem_candsS]

/-- Peeling a final diagonal step off a candidate trace. -/
theorem mem_cons_diag (sOK : Nat → Nat → Bool) (rest : List Step) (i j : Nat) :
    (Step.diag :: rest) ∈ candsAll sOK i j ↔
      ∃ i' j', i = i' + 1 ∧ j = j' + 1 ∧ rest ∈ candsAll sOK i' j' := by
  rw [candsAll]
  rcases i with _ | i <;> rcases j with _ | j
  · rw [cands4_zero_zero]
    simp [mem_candsS]
  · rw [cands4_zero_succ]
    simp [mem_candsS]
  · rw [cands4_succ_zero]
    simp [mem_candsS]
  · rw [cands4_succ_succ]
    simp [mem_candsS]

/-- Peeling a final vertical step off a candidate trace. -/
theorem mem_cons_up (sOK : Nat → Nat → Bool) (rest : List Step) (i j : Nat) :
    (Step.up :: rest) ∈ candsAll sOK i j ↔
      ∃ i', i = i' + 1 ∧ rest ∈ candsAll sOK i' j := by
  rw [candsAll]
  rcases i with _ | i <;> rcases j with _ | j
  · rw [cands4_zero_zero]
    simp [mem_candsS]
  · rw [cands4_zero_succ]
    simp [mem_candsS]
  · rw [cands4_succ_zero]
    simp [mem_candsS]
  · rw [cands4_succ_succ]
    simp [mem_candsS]

/-- Peeling a final horizontal step off a candidate trace. -/
theorem mem_cons_left (sOK : Nat → Nat → Bool) (rest : List Step) (i j : Nat) :
    (Step.left :: rest) ∈ candsAll sOK i j ↔
      ∃ j', j = j' + 1 ∧ rest ∈ candsAll sOK i j' := by
  rw [candsAll]
  rcases i with _ | i <;> rcases j with _ | j
  · rw [cands4_zero_zero]
    simp [mem_candsS]
  · rw [cands4_zero_succ]
    simp [mem_candsS]
  · rw [cands4_succ_zero]
    simp [mem_candsS]
  · rw [cands4_succ_succ]
    simp [mem_candsS]

/-- Characterization of the candidate traces at cell (i, j): they fit in
the rectangle and begin at an allowed start cell. -/
theorem mem_candsAll_iff (sOK : Nat → Nat → Bool) (rp : List Step) : ∀ i j : Nat,
    rp ∈ candsAll sOK i j ↔
      c1 rp ≤ i ∧ c2 rp ≤ j ∧ sOK (i - c1 rp) (j - c2 rp) = true := by
  induction rp with
  | nil =>
    intro i j
    rw [mem_nil_candsAll]
    show sOK i j = true ↔ 0 ≤ i ∧ 0 ≤ j ∧ sOK (i - 0) (j - 0) = true
    simp
  | cons s rest ih =>
    intro i j
    cases s with
    | diag =>
      rw [mem_cons_diag]
      constructor
      · rintro ⟨i', j', rfl, rfl, hrest⟩
        obtain ⟨h1, h2, hs⟩ := (ih i' j').mp hrest
        refine ⟨?_, ?_, ?_⟩
        · show c1 rest + 1 ≤ i' + 1
          omega
        · show c2 rest + 1 ≤ j' + 1
          omega
        · show sOK (i' + 1 - (c1 rest + 1)) (j' + 1 - (c2 rest + 1)) = true
          rw [Nat.succ_sub_succ, Nat.succ_sub_succ]
          exact hs
      · rintro ⟨h1, h2, hs⟩
        have h1' : c1 rest + 1 ≤ i := h1
        have h2' : c2 rest + 1 ≤ j := h2
        rcases i with _ | i'
        · omega
        rcases j with _ | j'
        · omega
        refine ⟨i', j', rfl, rfl, (ih i' j').mpr ⟨by omega, by omega, ?_⟩⟩
        have hs' : sOK (i' + 1 - (c1 rest + 1)) (j' + 1 - (c2 rest + 1)) = true := hs
        rw [Nat.succ_sub_succ, Nat.succ_sub_succ] at hs'
        exact hs'
    | up =>
      rw [mem_cons_up]
      constructor
      · rintro ⟨i', rfl, hrest⟩
        obtain ⟨h1, h2, hs⟩ := (ih i' j).mp hrest
        refine ⟨?_, ?_, ?_⟩
        · show c1 rest + 1 ≤ i' + 1
          omega
        · show c2 rest ≤ j
          omega
        · show sOK (i' + 1 - (c1 rest + 1)) (j - c2 rest) = true
          rw [Nat.succ_sub_succ]
          exact hs
      · rintro ⟨h1, h2, hs⟩
        have h1' : c1 rest + 1 ≤ i := h1
        rcases i with _ | i'
        · omega
        refine ⟨i', rfl, (ih i' j).mpr ⟨by omega, h2, ?_⟩⟩
        have hs' : sOK (i' + 1 - (c1 rest + 1)) (j - c2 rest) = true := hs
        rw [Nat.succ_sub_succ] at hs'
        exact hs'
    | left =>
      rw [mem_cons_left]
      constructor
      · rintro ⟨j', rfl, hrest⟩
        obtain ⟨h1, h2, hs⟩ := (ih i j').mp hrest
        refine ⟨?_, ?_, ?_⟩
        · show c1 rest ≤ i
          omega
        · show c2 rest + 1 ≤ j' + 1
          omega
        · show sOK (i - c1 rest) (j' + 1 - (c2 rest + 1)) = true
          rw [Nat.succ_sub_succ]
          exact hs
      · rintro ⟨h1, h2, hs⟩
        have h2' : c2 rest + 1 ≤ j := h2
        rcases j with _ | j'
        · omega
        refine ⟨j', rfl, (ih i j').mpr ⟨h1, by omega, ?_⟩⟩
        have hs' : sOK (i - c1 rest) (j' + 1 - (c2 rest + 1)) = true := hs
        rw [Nat.succ_sub_succ] at hs'
        exact hs'

/-- Modelled from the spec: a substitution matrix over integer-coded
alphabets — a dimension and a score lookup. -/
structure SubMatrix : Type where
  size : Nat
  score : Nat → Nat → Int

/-- Modelled from the spec: a linear or affine gap penalty. -/
inductive GapPenalty : Type
  | linear (g : Int)
  | affine (o e : Int)

/-- Gap-open and gap-extend costs of a penalty; a linear penalty charges
every gap column alike, i.e. open = extend. -/
def penParams : GapPenalty → Int × Int
  | .linear g => (g, g)
  | .affine o e => (o, e)

/-- Modelled from the spec: the alignment mode (the spec's local mode is
spelled `localMode`, `local` being reserved). -/
inductive Mode : Type
  | global
  | localMode
  | semiGlobal

/-- Allowed start cells per mode: the origin in global mode, every cell in
local mode, the start of the second sequence in semi-global mode (the
first-sequence axis is the free one). -/
def startOKOf : Mode → Nat → Nat → Bool
  | .global => fun i j => i == 0 && j == 0
  | .localMode => fun _ _ => true
  | .semiGlobal => fun _ j => j == 0

/-- Allowed end cells per mode — the traceback start cells: the terminal
cell in global mode, every cell in local mode, the full-second-sequence
column in semi-global mode. -/
def endCells : Mode → Nat → Nat → List (Nat × Nat)
  | .global, m, n => [(m, n)]
  | .localMode, m, n =>
    (List.range (m + 1)).flatMap (fun i => (List.range (n + 1)).map (fun j => (i, j)))
  | .semiGlobal, m, n => (List.range (m + 1)).map (fun i => (i, n))

/-- Best DP value over a set of end cells. -/
def bestOver (P : DPIn) : List (Nat × Nat) → Option Int
  | [] => none
  | c :: r => maxO (dpVal P c.1 c.2) (bestOver P r)

/-- Score of a returned alignment: the trace score at its end cell. -/
def alnScore (P : DPIn) (a : Nat × Nat × List Step) : Int :=
  rscore P a.1 a.2.1 a.2.2

/-- Every candidate alignment over a set of end cells. -/
def alnCands (sOK : Nat → Nat → Bool) (cells : List (Nat × Nat)) :
    List (Nat × Nat × List Step) :=
  cells.flatMap (fun c => (candsAll sOK c.1 c.2).map (fun rp => (c.1, c.2, rp)))

/-- Modelled from the spec: the two failure kinds of `align`. -/
inductive AlignErr : Type
  | invalidAlphabetError
  | emptyInputError
deriving DecidableEq

/-- The DP inputs of one `align` call. -/
def mkDP (Mx : SubMatrix) (g : GapPenalty) (mode : Mode) (s1 s2 : List Nat) : DPIn :=
  { Mx := Mx.score, s1 := s1, s2 := s2, o := (penParams g).1, e := (penParams g).2,
    startOK := startOKOf mode }

/-- Modelled from the spec: `align(seq1, seq2, matrix, gapPenalty, mode)`.
An out-of-alphabet code fails, two empty sequences fail, and otherwise the
call returns the best score of the three-track dynamic program over the
mode's end cells together with every optimal alignment. -/
def align (s1 s2 : List Nat) (Mx : SubMatrix) (g : GapPenalty) (mode : Mode) :
    Except AlignErr (Int × List (Nat × Nat × List Step)) :=
  if ¬ ((∀ c ∈ s1, c < Mx.size) ∧ (∀ c ∈ s2, c < Mx.size)) then
    .error .invalidAlphabetError
  else if s1 = [] ∧ s2 = [] then .error .emptyInputError
  else
    let P := mkDP Mx g mode s1 s2
    let cells := endCells mode s1.length s2.length
    let best := (bestOver P cells).getD 0
    .ok (best, (alnCands (startOKOf mode) cells).filter
      (fun a => decide (alnScore P a = best)))

/-- The best end-cell DP value is the best candidate-alignment score. -/
theorem bestOver_eq_listMax (P : DPIn) (cells : List (Nat × Nat)) :
    bestOver P cells = listMax ((alnCands P.startOK cells).map (alnScore P)) := by
  induction cells with
  | nil => rfl
  | cons c r ih =>
    show maxO (dpVal P c.1 c.2) (bestOver P r) = _
    rw [ih, dpVal_eq]
    rw [show alnCands P.startOK (c :: r) =
      (candsAll P.startOK c.1 c.2).map (fun rp => (c.1, c.2, rp)) ++ alnCands P.startOK r
      from by rw [alnCands, alnCands, List.flatMap_cons]]
    rw [List.map_append, listMax_append]
    congr 1
    unfold scA
    rw [List.map_map]
    apply congrArg listMax
    apply List.map_congr_left
    intro rp _
    rfl

/-- Consumption counts of a concatenated trace. -/
theorem c1_append (a b : List Step) : c1 (a ++ b) = c1 a + c1 b := by
  induction a with
  | nil => simp [c1]
  | cons s r ih => cases s <;> simp [c1, ih] <;> omega

/-- Consumption counts of a concatenated trace, second sequence. -/
theorem c2_append (a b : List Step) : c2 (a ++ b) = c2 a + c2 b := by
  induction a with
  | nil => simp [c2]
  | cons s r ih => cases s <;> simp [c2, ih] <;> omega

/-- An all-vertical trace consumes only the first sequence. -/
theorem c_replicate_up (k : Nat) :
    c1 (List.replicate k Step.up) = k ∧ c2 (List.replicate k Step.up) = 0 := by
  induction k with
  | zero => exact ⟨rfl, rfl⟩
  | succ k ih =>
    rw [List.replicate_succ]
    exact ⟨by simp [c1, ih.1], by simp [c2, ih.2]⟩

/-- An all-horizontal trace consumes only the second sequence. -/
theorem c_replicate_left (k : Nat) :
    c1 (List.replicate k Step.left) = 0 ∧ c2 (List.replicate k Step.left) = k := by
  induction k with
  | zero => exact ⟨rfl, rfl⟩
  | succ k ih =>
    rw [List.replicate_succ]
    exact ⟨by simp [c1, ih.1], by simp [c2, ih.2]⟩

/-- Every mode admits at least one candidate alignment. -/
theorem alnCands_ne_nil (mode : Mode) (m n : Nat) :
    alnCands (startOKOf mode) (endCells mode m n) ≠ [] := by
  cases mode with
  | global =>
    apply List.ne_nil_of_mem (a := (m, n, List.replicate n Step.left ++ List.replicate m Step.up))
    unfold alnCands
    apply List.mem_flatMap.mpr
    refine ⟨(m, n), List.mem_singleton.mpr rfl, ?_⟩
    apply List.mem_map.mpr
    refine ⟨_, ?_, rfl⟩
    apply (mem_candsAll_iff _ _ _ _).mpr
    have h1 : c1 (List.replicate n Step.left ++ List.replicate m Step.up) = m := by
      rw [c1_append, (c_replicate_left n).1, (c_replicate_up m).1]
      omega
    have h2 : c2 (List.replicate n Step.left ++ List.replicate m Step.up) = n := by
      rw [c2_append, (c_replicate_left n).2, (c_replicate_up m).2]
      omega
    rw [h1, h2]
    refine ⟨Nat.le_refl m, Nat.le_refl n, ?_⟩
    rw [Nat.sub_self, Nat.sub_self]
    rfl
  | localMode =>
    apply List.ne_nil_of_mem (a := (0, 0, ([] : List Step)))
    unfold alnCands
    apply List.mem_flatMap.mpr
    refine ⟨(0, 0), ?_, ?_⟩
    · show (0, 0) ∈ (List.range (m + 1)).flatMap
        (fun i => (List.range (n + 1)).map (fun j => (i, j)))
      apply List.mem_flatMap.mpr
      refine ⟨0, List.mem_range.mpr (by omega), ?_⟩
      exact List.mem_map.mpr ⟨0, List.mem_range.mpr (by omega), rfl⟩
    · apply List.mem_map.mpr
      refine ⟨[], ?_, rfl⟩
      exact (mem_nil_candsAll _ 0 0).mpr rfl
  | semiGlobal =>
    apply List.ne_nil_of_mem (a := (0, n, List.replicate n Step.left))
    unfold alnCands
    apply List.mem_flatMap.mpr
    refine ⟨(0, n), ?_, ?_⟩
    · show (0, n) ∈ (List.range (m + 1)).map (fun i => (i, n))
      exact List.mem_map.mpr ⟨0, List.mem_range.mpr (by omega), rfl⟩
    · apply List.mem_map.mpr
      refine ⟨_, ?_, rfl⟩
      apply (mem_candsAll_iff _ _ _ _).mpr
      rw [(c_replicate_left n).1, (c_replicate_left n).2]
      refine ⟨Nat.zero_le 0, Nat.le_refl n, ?_⟩
      simp [startOKOf]

/-- Modelled from the spec: where an alignment of the given mode may
end. -/
def EndOK : Mode → Nat → Nat → Nat → Nat → Prop
  | .global, m, n, i, j => i = m ∧ j = n
  | .localMode, m, n, i, j => i ≤ m ∧ j ≤ n
  | .semiGlobal, m, n, i, j => i ≤ m ∧ j = n

/-- Modelled from the spec: where an alignment of the given mode may
start. -/
def StartFree : Mode → Nat → Nat → Prop
  | .global, i, j => i = 0 ∧ j = 0
  | .localMode, _, _ => True
  | .semiGlobal, _, j => j = 0

/-- Modelled from the spec: an alignment of the two inputs under the
given mode — a trace inside the (m+1) x (n+1) rectangle whose start and
end cells the mode allows. -/
def IsAlignment (mode : Mode) (m n : Nat) (a : Nat × Nat × List Step) : Prop :=
  EndOK mode m n a.1 a.2.1 ∧ c1 a.2.2 ≤ a.1 ∧ c2 a.2.2 ≤ a.2.1 ∧
    StartFree mode (a.1 - c1 a.2.2) (a.2.1 - c2 a.2.2)

/-- The end-cell list enumerates exactly the mode's allowed end cells. -/
theorem mem_endCells (mode : Mode) (m n i j : Nat) :
    (i, j) ∈ endCells mode m n ↔ EndOK mode m n i j := by
  cases mode with
  | global =>
    simp only [endCells, EndOK, List.mem_singleton, Prod.mk.injEq]
  | localMode =>
    simp only [endCells, EndOK, List.mem_flatMap, List.mem_map, List.mem_range]
    constructor
    · rintro ⟨a, ha, b, hb, heq⟩
      cases heq
      omega
    · rintro ⟨hi, hj⟩
      exact ⟨i, by omega, j, by omega, rfl⟩
  | semiGlobal =>
    simp only [endCells, EndOK, List.mem_map, List.mem_range]
    constructor
    · rintro ⟨a, ha, heq⟩
      cases heq
      exact ⟨by omega, rfl⟩
    · rintro ⟨hi, rfl⟩
      exact ⟨i, by omega, rfl⟩

/-- The mode's start predicate decides exactly the spec's free-start
condition. -/
theorem startOKOf_iff (mode : Mode) (i j : Nat) :
    startOKOf mode i j = true ↔ StartFree mode i j := by
  cases mode with
  | global => simp [startOKOf, StartFree]
  | localMode => simp [startOKOf, StartFree]
  | semiGlobal => simp [startOKOf, StartFree]

/-- The candidate list enumerates exactly the mode's alignments. -/
theorem mem_alnCands_iff (mode : Mode) (m n : Nat) (a : Nat × Nat × List Step) :
    a ∈ alnCands (startOKOf mode) (endCells mode m n) ↔ IsAlignment mode m n a := by
  obtain ⟨i, j, rp⟩ := a
  simp only [alnCands, List.mem_flatMap, List.mem_map]
  constructor
  · rintro ⟨c, hc, rp', hrp', heq⟩
    obtain ⟨ci, cj⟩ := c
    cases heq
    rw [mem_candsAll_iff] at hrp'
    obtain ⟨h1, h2, hs⟩ := hrp'
    exact ⟨(mem_endCells mode m n ci cj).mp hc, h1, h2, (startOKOf_iff mode _ _).mp hs⟩
  · rintro ⟨hend, h1, h2, hstart⟩
    exact ⟨(i, j), (mem_endCells mode m n i j).mpr hend, rp,
      (mem_candsAll_iff _ _ _ _).mpr ⟨h1, h2, (startOKOf_iff mode _ _).mpr hstart⟩, rfl⟩

/-- C8: on every valid input — all sequence codes inside the matrix
dimension, not both sequences empty — `align` succeeds for every gap
penalty and mode, its result set is non-empty, every returned alignment
has the returned score, every returned alignment is an alignment of the
two inputs under the mode, and the shared score is maximal over all such
alignments under the given scoring scheme. -/
theorem c8_align_optimal (s1 s2 : List Nat) (Mx : SubMatrix) (g : GapPenalty)
    (mode : Mode) (h1 : ∀ c ∈ s1, c < Mx.size) (h2 : ∀ c ∈ s2, c < Mx.size)
    (h3 : ¬(s1 = [] ∧ s2 = [])) :
    ∃ best results,
      align s1 s2 Mx g mode = .ok (best, results) ∧
      results ≠ [] ∧
      (∀ a ∈ results, alnScore (mkDP Mx g mode s1 s2) a = best) ∧
      (∀ a ∈ results, IsAlignment mode s1.length s2.length a) ∧
      (∀ a, IsAlignment mode s1.length s2.length a →
        alnScore (mkDP Mx g mode s1 s2) a ≤ best) := by
  have hne : alnCands (startOKOf mode) (endCells mode s1.length s2.length) ≠ [] :=
    alnCands_ne_nil mode s1.length s2.length
  have hmapne : (alnCands (startOKOf mode) (endCells mode s1.length s2.length)).map
      (alnScore (mkDP Mx g mode s1 s2)) ≠ [] := by
    intro hc
    exact hne (List.map_eq_nil_iff.mp hc)
  obtain ⟨best, hbest⟩ := listMax_isSome _ hmapne
  have hbestOver : bestOver (mkDP Mx g mode s1 s2)
      (endCells mode s1.length s2.length) = some best := by
    rw [bestOver_eq_listMax]
    exact hbest
  have hgetD : (bestOver (mkDP Mx g mode s1 s2)
      (endCells mode s1.length s2.length)).getD 0 = best := by
    rw [hbestOver]
    rfl
  have halign : align s1 s2 Mx g mode = .ok (best,
      (alnCands (startOKOf mode) (endCells mode s1.length s2.length)).filter
        (fun a => decide (alnScore (mkDP Mx g mode s1 s2) a = best))) := by
    unfold align
    rw [if_neg (not_not_intro ⟨h1, h2⟩), if_neg h3]
    show Except.ok
        ((bestOver (mkDP Mx g mode s1 s2) (endCells mode s1.length s2.length)).getD 0,
          (alnCands (startOKOf mode) (endCells mode s1.length s2.length)).filter
            (fun a => decide (alnScore (mkDP Mx g mode s1 s2) a =
              (bestOver (mkDP Mx g mode s1 s2)
                (endCells mode s1.length s2.length)).getD 0))) = _
    rw [hgetD]
  refine ⟨best, _, halign, ?_, ?_, ?_, ?_⟩
  · have hmem := listMax_mem _ best hbest
    obtain ⟨a, ha, hsc⟩ := List.mem_map.mp hmem
    exact List.ne_nil_of_mem (List.mem_filter.mpr ⟨ha, decide_eq_true hsc⟩)
  · intro a ha
    exact of_decide_eq_true (List.mem_filter.mp ha).2
  · intro a ha
    exact (mem_alnCands_iff mode s1.length s2.length a).mp (List.mem_filter.mp ha).1
  · intro a hIsA
    have hmem : a ∈ alnCands (startOKOf mode) (endCells mode s1.length s2.length) :=
      (mem_alnCands_iff mode s1.length s2.length a).mpr hIsA
    exact listMax_ge _ _ (List.mem_map_of_mem _ hmem) best hbest

/-- Witness for C8: a global alignment of the coded sequences [0, 1] and
[0] under a match/mismatch matrix and linear gap penalty −2. -/
theorem c8_witness :
    (∀ c ∈ ([0, 1] : List Nat), c < 2) ∧
    (∀ c ∈ ([0] : List Nat), c < 2) ∧
    ¬(([0, 1] : List Nat) = [] ∧ ([0] : List Nat) = []) ∧
    (∃ best results,
      align [0, 1] [0] ⟨2, fun a b => if a == b then 1 else -1⟩
          (GapPenalty.linear (-2)) Mode.global = .ok (best, results) ∧
      results ≠ [] ∧
      (∀ a ∈ results, alnScore (mkDP ⟨2, fun a b => if a == b then 1 else -1⟩
        (GapPenalty.linear (-2)) Mode.global [0, 1] [0]) a = best) ∧
      (∀ a ∈ results, IsAlignment Mode.global 2 1 a) ∧
      (∀ a, IsAlignment Mode.global 2 1 a →
        alnScore (mkDP ⟨2, fun a b => if a == b then 1 else -1⟩
          (GapPenalty.linear (-2)) Mode.global [0, 1] [0]) a ≤ best)) :=
  ⟨by decide, by decide, by decide,
    c8_align_optimal [0, 1] [0] ⟨2, fun a b => if a == b then 1 else -1⟩
      (GapPenalty.linear (-2)) Mode.global (by decide) (by decide) (by decide)⟩
